import Mathlib

/-!
Verification development for the oblivious-container library
(Path-ORAM style oblivious map and oblivious queue with authenticated
encryption, as implemented in `crypto.hpp`, `tree-map.hpp`,
`tree-queue.hpp` and the hardened variants).

Modelling conventions used throughout:

* Byte strings (`std::string` used as a byte buffer) are `List Nat`.
* Randomness (`secure_random_index`) is made explicit: every container
  state carries a list `rng : List Nat` of pre-drawn random words; a
  draw takes the head modulo the range (an exhausted supply yields 0).
  All theorems quantify over the supply, so nothing depends on the
  distribution.
* The process-wide AES key and the OpenSSL primitives are abstracted:
  the block cipher is a parameter `E : Bytes → Bytes` (with inverse
  `D`) acting on 16-byte blocks, and the MAC is a parameter
  `mac : Bytes → Bytes` producing 32 bytes.  CBC chaining, PKCS#7
  padding, the `IV || ciphertext || HMAC` layout and all length
  bookkeeping are modelled concretely, following `crypto.hpp`.
* Floating-point threshold tests such as `stash.size() > stashLimit * 0.75`
  are modelled by the exact rational comparison (`4 * s > 3 * L`);
  likewise `static_cast<size_t>(x * 1.2)` is `6 * x / 5` and
  `static_cast<int>(n * 0.2)` is `n / 5`, which agree with the IEEE
  double computations for all realistic sizes.
* C++ loops without a structural bound are written with an explicit
  fuel argument; the fuel passed by the wrapper is a bound on the
  number of iterations the C++ loop can perform (each continuing
  iteration of those loops strictly shrinks the stash).
-/

namespace Oram

/-- Byte strings (`std::string` payloads) are lists of naturals. -/
abbrev Bytes := List Nat

/-- Pointwise XOR of two byte strings, as performed inside CBC mode. -/
def xorBytes (a b : Bytes) : Bytes := List.zipWith Nat.xor a b

/-- PKCS#7 padding as applied by `EVP_EncryptFinal_ex` for AES-256-CBC:
append `16 - n % 16` copies of that same value. -/
def pad16 (pt : Bytes) : Bytes :=
  pt ++ List.replicate (16 - pt.length % 16) (16 - pt.length % 16)

/-- PKCS#7 unpadding as checked by `EVP_DecryptFinal_ex`: the last byte
`p` must lie in `[1,16]` and the last `p` bytes must all equal `p`. -/
def unpad16 (m : Bytes) : Option Bytes :=
  match m.getLast? with
  | none => none
  | some p =>
      if 1 ≤ p ∧ p ≤ 16 ∧ p ≤ m.length ∧ (m.drop (m.length - p)).all (· == p)
      then some (m.take (m.length - p)) else none

/-- CBC encryption over 16-byte blocks with chaining value `prev`
(initially the IV), fuelled by the message length. -/
def cbcEnc (E : Bytes → Bytes) : Nat → Bytes → Bytes → Bytes
  | _, _, [] => []
  | 0, _, _ => []
  | fuel + 1, prev, m =>
      E (xorBytes prev (m.take 16)) ++ cbcEnc E fuel (E (xorBytes prev (m.take 16))) (m.drop 16)

/-- CBC decryption over 16-byte blocks with chaining value `prev`
(initially the IV), fuelled by the ciphertext length. -/
def cbcDec (D : Bytes → Bytes) : Nat → Bytes → Bytes → Bytes
  | _, _, [] => []
  | 0, _, _ => []
  | fuel + 1, prev, c =>
      xorBytes prev (D (c.take 16)) ++ cbcDec D fuel (c.take 16) (c.drop 16)

/-- Output of `secure_encrypt_string` (`crypto.hpp`): AES-256-CBC body
with PKCS#7 padding, prefixed by the 16-byte IV, followed by a 32-byte
HMAC over `IV || body`. -/
def secureEncryptStr (E mac : Bytes → Bytes) (iv pt : Bytes) : Bytes :=
  (iv ++ cbcEnc E (pad16 pt).length iv (pad16 pt))
    ++ mac (iv ++ cbcEnc E (pad16 pt).length iv (pad16 pt))

/-- Failure modes of `secure_decrypt_string`. -/
inductive CryptoErr where
  | malformed : CryptoErr
  | authFail : CryptoErr
  | badPad : CryptoErr
deriving DecidableEq

/-- Behaviour of `secure_decrypt_string` (`crypto.hpp`): length check,
HMAC verification over everything but the 32-byte tag, CBC decryption
with the leading 16 bytes as IV, and PKCS#7 unpadding. -/
def secureDecryptStr (D mac : Bytes → Bytes) (input : Bytes) : Except CryptoErr Bytes :=
  if input.length < 16 + 32 then .error .malformed
  else if mac (input.take (input.length - 32)) = input.drop (input.length - 32) then
    match unpad16 (cbcDec D ((input.drop 16).take (input.length - 32 - 16)).length
        (input.take 16) ((input.drop 16).take (input.length - 32 - 16))) with
    | some pt => .ok pt
    | none => .error .badPad
  else .error .authFail

theorem xorBytes_length (a b : Bytes) : (xorBytes a b).length = min a.length b.length := by
  simp [xorBytes]

theorem xorBytes_xorBytes (a b : Bytes) (h : a.length = b.length) :
    xorBytes a (xorBytes a b) = b := by
  induction a generalizing b with
  | nil => cases b <;> simp_all [xorBytes]
  | cons x xs ih =>
      cases b with
      | nil => simp at h
      | cons y ys =>
          simp only [xorBytes, List.zipWith] at *
          refine congrArg₂ _ ?_ (ih ys (by simpa using h))
          show x ^^^ (x ^^^ y) = y
          rw [← Nat.xor_assoc, Nat.xor_self, Nat.zero_xor]

theorem cbcEnc_length (E : Bytes → Bytes) (hE : ∀ b : Bytes, b.length = 16 → (E b).length = 16)
    (fuel : Nat) (prev m : Bytes) (hf : m.length ≤ fuel) (hd : 16 ∣ m.length)
    (hp : prev.length = 16) : (cbcEnc E fuel prev m).length = m.length := by
  induction fuel generalizing prev m with
  | zero =>
      have : m = [] := List.eq_nil_of_length_eq_zero (Nat.le_zero.mp hf)
      subst this; simp [cbcEnc]
  | succ f ih =>
      cases m with
      | nil => simp [cbcEnc]
      | cons x xs =>
          have h16 : 16 ≤ (x :: xs).length := by
            rcases hd with ⟨k, hk⟩
            rcases k with _ | k
            · simp at hk
            · simp only [hk]; omega
          have htake : ((x :: xs).take 16).length = 16 := by
            simp only [List.length_take]; omega
          have hxor : (xorBytes prev ((x :: xs).take 16)).length = 16 := by
            rw [xorBytes_length, hp, htake]; simp
          have hdrop : ((x :: xs).drop 16).length = (x :: xs).length - 16 :=
            List.length_drop 16 (x :: xs)
          simp only [cbcEnc, List.length_append]
          rw [hE _ hxor, ih _ _ (by omega)
            (by rw [hdrop]; exact Nat.dvd_sub' hd ⟨1, by ring⟩) (hE _ hxor)]
          omega

theorem cbcDec_cbcEnc (E D : Bytes → Bytes)
    (hE : ∀ b : Bytes, b.length = 16 → (E b).length = 16)
    (hD : ∀ b : Bytes, b.length = 16 → D (E b) = b)
    (fuel g : Nat) (prev m : Bytes) (hf : m.length ≤ fuel) (hg : m.length ≤ g)
    (hd : 16 ∣ m.length) (hp : prev.length = 16) :
    cbcDec D g prev (cbcEnc E fuel prev m) = m := by
  induction fuel generalizing g prev m with
  | zero =>
      have : m = [] := List.eq_nil_of_length_eq_zero (Nat.le_zero.mp hf)
      subst this; simp [cbcEnc, cbcDec]
  | succ f ih =>
      cases m with
      | nil => simp [cbcEnc, cbcDec]
      | cons x xs =>
          have h16 : 16 ≤ (x :: xs).length := by
            rcases hd with ⟨k, hk⟩
            rcases k with _ | k
            · simp at hk
            · simp only [hk]; omega
          have htake : ((x :: xs).take 16).length = 16 := by
            simp only [List.length_take]; omega
          have hxor : (xorBytes prev ((x :: xs).take 16)).length = 16 := by
            rw [xorBytes_length, hp, htake]; simp
          have hc : (E (xorBytes prev ((x :: xs).take 16))).length = 16 := hE _ hxor
          have hddvd : 16 ∣ ((x :: xs).drop 16).length := by
            rw [List.length_drop]
            exact Nat.dvd_sub' hd ⟨1, by ring⟩
          have hdle : ((x :: xs).drop 16).length ≤ f := by
            rw [List.length_drop]; omega
          obtain ⟨g', rfl⟩ : ∃ g', g = g' + 1 := ⟨g - 1, by omega⟩
          have henc : cbcEnc E (f + 1) prev (x :: xs)
              = E (xorBytes prev ((x :: xs).take 16))
                ++ cbcEnc E f (E (xorBytes prev ((x :: xs).take 16))) ((x :: xs).drop 16) := rfl
          rw [henc]
          set c := E (xorBytes prev ((x :: xs).take 16)) with hcdef
          set rest := cbcEnc E f c ((x :: xs).drop 16) with hrdef
          obtain ⟨a, as, hcas⟩ : ∃ a as, c ++ rest = a :: as := by
            cases hcc : c with
            | nil => rw [hcc] at hc; simp at hc
            | cons a as => exact ⟨a, as ++ rest, List.cons_append a as rest⟩
          have hdec : cbcDec D (g' + 1) prev (c ++ rest)
              = xorBytes prev (D ((c ++ rest).take 16))
                ++ cbcDec D g' ((c ++ rest).take 16) ((c ++ rest).drop 16) := by
            rw [hcas]; rfl
          rw [hdec]
          have htakec : (c ++ rest).take 16 = c := by
            rw [← hc]; exact List.take_left c rest
          have hdropc : (c ++ rest).drop 16 = rest := by
            rw [← hc]; exact List.drop_left c rest
          rw [htakec, hdropc, hcdef, hD _ hxor,
            xorBytes_xorBytes _ _ (by rw [hp, htake]), ← hcdef, hrdef,
            ih g' c ((x :: xs).drop 16) hdle (by rw [List.length_drop]; omega) hddvd hc,
            List.take_append_drop]

theorem pad16_length (pt : Bytes) : (pad16 pt).length = 16 * (pt.length / 16 + 1) := by
  have h1 : pt.length % 16 < 16 := Nat.mod_lt _ (by norm_num)
  have h2 : 16 * (pt.length / 16) + pt.length % 16 = pt.length := Nat.div_add_mod _ _
  simp only [pad16, List.length_append, List.length_replicate]
  omega

theorem pad16_dvd (pt : Bytes) : 16 ∣ (pad16 pt).length := by
  rw [pad16_length]; exact ⟨pt.length / 16 + 1, rfl⟩

theorem getLast?_replicate_self (p : Nat) (hp : 1 ≤ p) :
    (List.replicate p p).getLast? = some p := by
  cases p with
  | zero => omega
  | succ k => rw [List.replicate_succ', List.getLast?_concat]

theorem unpad16_pad16 (pt : Bytes) : unpad16 (pad16 pt) = some pt := by
  have h1 : pt.length % 16 < 16 := Nat.mod_lt _ (by norm_num)
  set p := 16 - pt.length % 16 with hpdef
  have hp1 : 1 ≤ p := by omega
  have hlast : (pad16 pt).getLast? = some p := by
    rw [pad16, ← hpdef, List.getLast?_append, getLast?_replicate_self p hp1]
    rfl
  have hlen : (pad16 pt).length = pt.length + p := by
    simp [pad16, ← hpdef]
  rw [unpad16, hlast]
  have hsub : (pad16 pt).length - p = pt.length := by omega
  have hdrop : (pad16 pt).drop ((pad16 pt).length - p) = List.replicate p p := by
    rw [hsub, pad16, ← hpdef]
    exact List.drop_left pt (List.replicate p p)
  have htake : (pad16 pt).take ((pad16 pt).length - p) = pt := by
    rw [hsub, pad16, ← hpdef]
    exact List.take_left pt (List.replicate p p)
  simp only [hdrop, htake]
  rw [if_pos]
  refine ⟨hp1, by omega, by omega, ?_⟩
  rw [List.all_eq_true]
  intro x hx
  have hxp := List.eq_of_mem_replicate hx
  simp [hxp]

/-- Claim C1.  With a block cipher `E` whose inverse is `D` (both acting
on 16-byte blocks, `E` length-preserving), a 16-byte IV and a MAC
producing 32 bytes, `secure_decrypt_string` inverts
`secure_encrypt_string` on every plaintext and raises no error. -/
theorem crypto_roundtrip_c1 (E D mac : Bytes → Bytes) (iv pt : Bytes)
    (hE : ∀ b : Bytes, b.length = 16 → (E b).length = 16)
    (hD : ∀ b : Bytes, b.length = 16 → D (E b) = b)
    (hiv : iv.length = 16)
    (hmac : ∀ m : Bytes, (mac m).length = 32) :
    secureDecryptStr D mac (secureEncryptStr E mac iv pt) = Except.ok pt := by
  have hbody : (cbcEnc E (pad16 pt).length iv (pad16 pt)).length = (pad16 pt).length :=
    cbcEnc_length E hE _ _ _ le_rfl (pad16_dvd pt) hiv
  have hpadpos : 16 ≤ (pad16 pt).length := by
    rw [pad16_length]; omega
  rw [secureEncryptStr]
  set B := cbcEnc E (pad16 pt).length iv (pad16 pt) with hBdef
  set out := iv ++ B with houtdef
  have houtlen : out.length = 16 + (pad16 pt).length := by
    simp [houtdef, hiv, hbody]
  have hinlen : (out ++ mac out).length = out.length + 32 := by
    simp [hmac]
  rw [secureDecryptStr]
  rw [if_neg (by rw [hinlen]; omega)]
  have hoff : (out ++ mac out).length - 32 = out.length := by omega
  have htakeo : (out ++ mac out).take ((out ++ mac out).length - 32) = out := by
    rw [hoff]; exact List.take_left out (mac out)
  have hdropo : (out ++ mac out).drop ((out ++ mac out).length - 32) = mac out := by
    rw [hoff]; exact List.drop_left out (mac out)
  rw [htakeo, hdropo, if_pos rfl]
  have htiv : (out ++ mac out).take 16 = iv := by
    rw [houtdef, List.append_assoc, ← hiv]
    exact List.take_left iv (B ++ mac out)
  have hlen2 : (out ++ mac out).length - 32 - 16 = B.length := by
    rw [hoff, houtlen, hbody]; omega
  have hdrop16 : (out ++ mac out).drop 16 = B ++ mac out := by
    conv_lhs => rw [houtdef, List.append_assoc, ← hiv]
    exact List.drop_left iv (B ++ mac out)
  have hdct : ((out ++ mac out).drop 16).take ((out ++ mac out).length - 32 - 16) = B := by
    rw [hdrop16, hlen2]
    exact List.take_left B (mac out)
  rw [htiv, hdct, hBdef,
    cbcDec_cbcEnc E D hE hD _ _ _ _ le_rfl (by rw [hbody]) (pad16_dvd pt) hiv,
    unpad16_pad16]

/-- Witness for C1 at a concrete cipher (the identity permutation), a
zero IV, a constant MAC and the plaintext `[1,2,3]`. -/
theorem crypto_roundtrip_c1_witness :
    secureDecryptStr id (fun _ => List.replicate 32 0)
      (secureEncryptStr id (fun _ => List.replicate 32 0) (List.replicate 16 0) [1, 2, 3])
      = Except.ok [1, 2, 3] :=
  crypto_roundtrip_c1 id id (fun _ => List.replicate 32 0) (List.replicate 16 0) [1, 2, 3]
    (fun _ h => h) (fun _ _ => rfl) (by simp) (fun _ => by simp)

/-- Counterexample to claim C7 as stated: for the empty plaintext the
ciphertext has 64 bytes, not `|pt| + 48 = 48`, because CBC pads the body
to a positive multiple of 16 bytes. -/
theorem crypto_length_c7_counterexample :
    (secureEncryptStr id (fun _ => List.replicate 32 0) (List.replicate 16 0) []).length ≠
      (List.length ([] : Bytes)) + 48 := by
  decide

/-- Claim C7, amended.  The ciphertext length is
`|IV| + |body| + |tag| = 48 + 16 * (|pt| / 16 + 1)`: the body is the
PKCS#7-padded plaintext, one block more than `|pt|` rounded down, not
`|pt|` itself. -/
theorem crypto_length_c7 (E mac : Bytes → Bytes) (iv pt : Bytes)
    (hE : ∀ b : Bytes, b.length = 16 → (E b).length = 16)
    (hiv : iv.length = 16)
    (hmac : ∀ m : Bytes, (mac m).length = 32) :
    (secureEncryptStr E mac iv pt).length = 48 + 16 * (pt.length / 16 + 1) := by
  have hbody : (cbcEnc E (pad16 pt).length iv (pad16 pt)).length = (pad16 pt).length :=
    cbcEnc_length E hE _ _ _ le_rfl (pad16_dvd pt) hiv
  simp only [secureEncryptStr, List.length_append, hmac, hbody, hiv]
  rw [pad16_length]
  omega

/-- Witness for the amended C7 at the identity cipher and plaintext
`[7]`: the ciphertext has `48 + 16 = 64` bytes. -/
theorem crypto_length_c7_witness :
    (secureEncryptStr id (fun _ => List.replicate 32 0) (List.replicate 16 0) [7]).length
      = 48 + 16 * (List.length [7] / 16 + 1) :=
  crypto_length_c7 id (fun _ => List.replicate 32 0) (List.replicate 16 0) [7]
    (fun _ h => h) (by simp) (fun _ => by simp)

/-!
Generic eviction-engine building blocks.  Every container variant in
the source shares the same inner loops: `get_path_indices` (halving a
1-based tree index), `read_path` (drain the valid blocks of each bucket
on the path into the stash) and a placement pass (for each empty slot
of a bucket, `std::find_if` the first eligible stash block, write it
into the slot, erase it from the stash).  They are modelled once,
parametrised by the block type, the validity test, the slot transform
applied on placement, and the eligibility predicate.
-/

/-- Path fragment from the root down to index `i` (root first), fuelled:
the source loop pushes `i` and halves until reaching 0, then reverses. -/
def pathAux : Nat → Nat → List Nat
  | 0, _ => []
  | fuel + 1, i => if i = 0 then [] else pathAux fuel (i / 2) ++ [i]

/-- Mirror of `get_path_indices(leaf)`: the bucket indices from the root
to the 1-based tree index `2^h - 1 + leaf`, root first. -/
def getPathIndices (h leaf : Nat) : List Nat :=
  pathAux (2 ^ h + leaf) (2 ^ h - 1 + leaf)

/-- Draw of `secure_random_index(range)` from an explicit supply of
pre-drawn random words. -/
def drawR (rng : List Nat) (range : Nat) : Nat × List Nat :=
  match rng with
  | [] => (0, [])
  | r :: rest => (if range = 0 then 0 else r % range, rest)

/-- Generic `std::find_if` followed by `erase`: the first element
satisfying `p`, together with the remaining list. -/
def findExtract {α : Type} (p : α → Bool) : List α → Option (α × List α)
  | [] => none
  | b :: bs =>
      if p b then some (b, bs)
      else
        match findExtract p bs with
        | some (x, rest) => some (x, b :: rest)
        | none => none

/-- Generic placement pass over one bucket: for every empty slot, move
the first eligible stash block into it (through `place`, which the
hardened variants use to reset the eviction-attempt counter).  Returns
the new bucket, the new stash and the number of placements. -/
def fillSlots {α : Type} (isV : α → Bool) (place : α → α) (elig : α → Bool) :
    List α → List α → List α × List α × Nat
  | [], stash => ([], stash, 0)
  | s :: ss, stash =>
      if isV s then
        let r := fillSlots isV place elig ss stash
        (s :: r.1, r.2.1, r.2.2)
      else
        match findExtract elig stash with
        | some (b, rest) =>
            let r := fillSlots isV place elig ss rest
            (place b :: r.1, r.2.1, r.2.2 + 1)
        | none =>
            let r := fillSlots isV place elig ss stash
            (s :: r.1, r.2.1, r.2.2)

/-- One eviction round over a list of bucket indices (a path, or all of
`1..numBuckets` for a full eviction). -/
def passOver {α : Type} (isV : α → Bool) (place : α → α) (elig : Nat → α → Bool) :
    List Nat → List (List α) → List α → List (List α) × List α × Nat
  | [], tree, stash => (tree, stash, 0)
  | i :: rest, tree, stash =>
      let r := fillSlots isV place (elig i) (tree.getD i []) stash
      let r2 := passOver isV place elig rest (tree.set i r.1) r.2.1
      (r2.1, r2.2.1, r.2.2 + r2.2.2)

/-- Drain one bucket (`read_path` body): every valid block is moved out
and its slot marked as a dummy; returns the new slots and the drained
blocks in slot order. -/
def drainBucket {α : Type} (isV : α → Bool) (inval : α → α) : List α → List α × List α
  | [] => ([], [])
  | b :: bs =>
      let r := drainBucket isV inval bs
      if isV b then (inval b :: r.1, b :: r.2) else (b :: r.1, r.2)

/-- Drain every bucket along a path, in path order. -/
def drainPath {α : Type} (isV : α → Bool) (inval : α → α) :
    List Nat → List (List α) → List (List α) × List α
  | [], tree => (tree, [])
  | i :: rest, tree =>
      let r := drainBucket isV inval (tree.getD i [])
      let r2 := drainPath isV inval rest (tree.set i r.1)
      (r2.1, r.2 ++ r2.2)

/-- Multiset of the `proj`-images of the valid blocks of a list. -/
def vms {α β : Type} (isV : α → Bool) (proj : α → β) (l : List α) : Multiset β :=
  ((l.filter isV).map proj : List β)

theorem vms_nil {α β : Type} (isV : α → Bool) (proj : α → β) : vms isV proj [] = 0 := rfl

theorem vms_cons {α β : Type} (isV : α → Bool) (proj : α → β) (b : α) (l : List α) :
    vms isV proj (b :: l) = if isV b then proj b ::ₘ vms isV proj l else vms isV proj l := by
  by_cases h : isV b <;> simp [vms, List.filter_cons, h]

theorem vms_append {α β : Type} (isV : α → Bool) (proj : α → β) (l₁ l₂ : List α) :
    vms isV proj (l₁ ++ l₂) = vms isV proj l₁ + vms isV proj l₂ := by
  simp [vms]

theorem vms_perm {α β : Type} (isV : α → Bool) (proj : α → β) {l₁ l₂ : List α}
    (h : l₁.Perm l₂) : vms isV proj l₁ = vms isV proj l₂ := by
  simp only [vms, Multiset.coe_eq_coe]
  exact (h.filter _).map _

theorem findExtract_eq_some {α : Type} (p : α → Bool) (l : List α) (b : α) (l' : List α)
    (h : findExtract p l = some (b, l')) :
    p b = true ∧ l.Perm (b :: l') ∧ l'.length + 1 = l.length := by
  induction l generalizing l' with
  | nil => simp [findExtract] at h
  | cons x xs ih =>
      rw [findExtract] at h
      by_cases hx : p x
      · rw [if_pos hx] at h
        simp only [Option.some.injEq, Prod.mk.injEq] at h
        obtain ⟨rfl, rfl⟩ := h
        exact ⟨hx, List.Perm.refl _, rfl⟩
      · rw [if_neg hx] at h
        cases hfe : findExtract p xs with
        | none => rw [hfe] at h; simp at h
        | some pr =>
            obtain ⟨y, rest⟩ := pr
            rw [hfe] at h
            simp only [Option.some.injEq, Prod.mk.injEq] at h
            obtain ⟨rfl, rfl⟩ := h
            obtain ⟨hp, hperm, hlen⟩ := ih rest hfe
            refine ⟨hp, ?_, by simpa using hlen⟩
            exact (hperm.cons x).trans (List.Perm.swap y x rest)

theorem fillSlots_stash_length {α : Type} (isV : α → Bool) (place : α → α) (elig : α → Bool)
    (slots stash : List α) :
    (fillSlots isV place elig slots stash).2.1.length
      + (fillSlots isV place elig slots stash).2.2 = stash.length := by
  induction slots generalizing stash with
  | nil => simp [fillSlots]
  | cons s ss ih =>
      rw [fillSlots]
      by_cases hv : isV s
      · rw [if_pos hv]; exact ih stash
      · rw [if_neg hv]
        cases hfe : findExtract elig stash with
        | none => exact ih stash
        | some pr =>
            obtain ⟨b, rest⟩ := pr
            have hlen := (findExtract_eq_some elig stash b rest hfe).2.2
            have := ih rest
            simp only []
            omega

theorem fillSlots_conserve {α β : Type} (isV : α → Bool) (place : α → α) (elig : α → Bool)
    (proj : α → β)
    (hpv : ∀ b, isV (place b) = isV b) (hpp : ∀ b, proj (place b) = proj b)
    (slots stash : List α) :
    vms isV proj (fillSlots isV place elig slots stash).1
      + vms isV proj (fillSlots isV place elig slots stash).2.1
      = vms isV proj slots + vms isV proj stash := by
  induction slots generalizing stash with
  | nil => simp [fillSlots, vms_nil]
  | cons s ss ih =>
      rw [fillSlots]
      by_cases hv : isV s
      · rw [if_pos hv]
        simp only [vms_cons, hv, if_pos]
        rw [Multiset.cons_add, ih stash, Multiset.cons_add]
      · rw [if_neg hv]
        cases hfe : findExtract elig stash with
        | none =>
            simp only [vms_cons, hv, if_neg, Bool.false_eq_true, not_false_iff, if_false]
            exact ih stash
        | some pr =>
            obtain ⟨b, rest⟩ := pr
            have hperm := (findExtract_eq_some elig stash b rest hfe).2.1
            have hstash : vms isV proj stash = vms isV proj (b :: rest) := vms_perm _ _ hperm
            simp only []
            rw [vms_cons, vms_cons, hpv b, if_neg hv, hstash, vms_cons]
            by_cases hb : isV b
            · rw [if_pos hb, if_pos hb, hpp b, Multiset.cons_add, ih rest, Multiset.add_cons]
            · rw [if_neg hb, if_neg hb]
              exact ih rest

theorem fillSlots_inv {α : Type} (isV : α → Bool) (place : α → α) (elig : α → Bool)
    (P : α → Prop) (hpl : ∀ b, elig b = true → P (place b))
    (slots stash : List α) (hs : ∀ b ∈ slots, isV b = true → P b) :
    ∀ b ∈ (fillSlots isV place elig slots stash).1, isV b = true → P b := by
  induction slots generalizing stash with
  | nil => simp [fillSlots]
  | cons s ss ih =>
      rw [fillSlots]
      by_cases hv : isV s
      · rw [if_pos hv]
        intro b hb hbv
        rcases List.mem_cons.mp hb with rfl | hb
        · exact hs b (List.mem_cons_self _ _) hbv
        · exact ih stash (fun x hx => hs x (List.mem_cons_of_mem _ hx)) b hb hbv
      · rw [if_neg hv]
        cases hfe : findExtract elig stash with
        | none =>
            intro b hb hbv
            rcases List.mem_cons.mp hb with rfl | hb
            · exact absurd hbv (by simp [hv])
            · exact ih stash (fun x hx => hs x (List.mem_cons_of_mem _ hx)) b hb hbv
        | some pr =>
            obtain ⟨c, rest⟩ := pr
            have hcel := (findExtract_eq_some elig stash c rest hfe).1
            intro b hb hbv
            rcases List.mem_cons.mp hb with rfl | hb
            · exact hpl c hcel
            · exact ih rest (fun x hx => hs x (List.mem_cons_of_mem _ hx)) b hb hbv

theorem set_beyond {α : Type} (t : List α) (i : Nat) (a : α) (h : t.length ≤ i) :
    t.set i a = t := by
  induction t generalizing i with
  | nil => simp
  | cons hd tl ih =>
      cases i with
      | zero => simp at h
      | succ i => simp only [List.set]; rw [ih i (by simpa using h)]

theorem getD_beyond {α : Type} (t : List (List α)) (i : Nat) (h : t.length ≤ i) :
    t.getD i [] = [] := by
  induction t generalizing i with
  | nil => simp
  | cons hd tl ih =>
      cases i with
      | zero => simp at h
      | succ i => simp only [List.getD_cons_succ]; exact ih i (by simpa using h)

theorem getD_set {α : Type} (t : List (List α)) (i j : Nat) (b' : List α) :
    (t.set i b').getD j [] = if j = i ∧ i < t.length then b' else t.getD j [] := by
  induction t generalizing i j with
  | nil => simp [List.set]
  | cons hd tl ih =>
      cases i with
      | zero =>
          cases j with
          | zero => simp [List.set]
          | succ j => simp [List.set, List.getD_cons_succ]
      | succ i =>
          cases j with
          | zero => simp [List.set, List.getD_cons_zero]
          | succ j =>
              simp only [List.set, List.getD_cons_succ, ih i j, List.length_cons]
              by_cases h : j = i ∧ i < tl.length
              · rw [if_pos h, if_pos ⟨by omega, by omega⟩]
              · rw [if_neg h, if_neg (by omega)]

theorem set_getD_self {α : Type} (t : List (List α)) (i : Nat) :
    t.set i (t.getD i []) = t := by
  induction t generalizing i with
  | nil => simp
  | cons hd tl ih =>
      cases i with
      | zero => simp [List.set]
      | succ i =>
          show hd :: tl.set i (tl.getD i []) = hd :: tl
          rw [ih i]

theorem flatten_set_vms {α β : Type} (isV : α → Bool) (proj : α → β)
    (t : List (List α)) (i : Nat) (b' : List α) (hi : i < t.length) :
    vms isV proj (t.set i b').flatten + vms isV proj (t.getD i [])
      = vms isV proj t.flatten + vms isV proj b' := by
  induction t generalizing i with
  | nil => simp at hi
  | cons hd tl ih =>
      cases i with
      | zero =>
          simp only [List.set, List.flatten_cons, List.getD_cons_zero, vms_append]
          abel
      | succ i =>
          have hi' : i < tl.length := by simpa using hi
          simp only [List.set, List.flatten_cons, List.getD_cons_succ, vms_append]
          rw [add_assoc, ih i hi', ← add_assoc]

theorem passOver_conserve {α β : Type} (isV : α → Bool) (place : α → α)
    (elig : Nat → α → Bool) (proj : α → β)
    (hpv : ∀ b, isV (place b) = isV b) (hpp : ∀ b, proj (place b) = proj b)
    (idxs : List Nat) (tree : List (List α)) (stash : List α) :
    vms isV proj (passOver isV place elig idxs tree stash).1.flatten
      + vms isV proj (passOver isV place elig idxs tree stash).2.1
      = vms isV proj tree.flatten + vms isV proj stash := by
  induction idxs generalizing tree stash with
  | nil => simp [passOver]
  | cons i rest ih =>
      rw [passOver]
      simp only []
      by_cases hi : i < tree.length
      · have hfill := fillSlots_conserve isV place (elig i) proj hpv hpp
          (tree.getD i []) stash
        have hflat := flatten_set_vms isV proj tree i
          (fillSlots isV place (elig i) (tree.getD i []) stash).1 hi
        have hrec := ih (tree.set i (fillSlots isV place (elig i) (tree.getD i []) stash).1)
          (fillSlots isV place (elig i) (tree.getD i []) stash).2.1
        rw [hrec]
        have h4 : (vms isV proj (tree.set i
              (fillSlots isV place (elig i) (tree.getD i []) stash).1).flatten
            + vms isV proj (fillSlots isV place (elig i) (tree.getD i []) stash).2.1)
            + vms isV proj (tree.getD i [])
            = (vms isV proj tree.flatten + vms isV proj stash)
              + vms isV proj (tree.getD i []) := by
          calc (vms isV proj (tree.set i
                  (fillSlots isV place (elig i) (tree.getD i []) stash).1).flatten
                + vms isV proj (fillSlots isV place (elig i) (tree.getD i []) stash).2.1)
                + vms isV proj (tree.getD i [])
              = (vms isV proj (tree.set i
                  (fillSlots isV place (elig i) (tree.getD i []) stash).1).flatten
                + vms isV proj (tree.getD i []))
                + vms isV proj (fillSlots isV place (elig i) (tree.getD i []) stash).2.1 := by
                abel
            _ = (vms isV proj tree.flatten
                + vms isV proj (fillSlots isV place (elig i) (tree.getD i []) stash).1)
                + vms isV proj (fillSlots isV place (elig i) (tree.getD i []) stash).2.1 := by
                rw [hflat]
            _ = vms isV proj tree.flatten
                + (vms isV proj (fillSlots isV place (elig i) (tree.getD i []) stash).1
                + vms isV proj (fillSlots isV place (elig i) (tree.getD i []) stash).2.1) := by
                abel
            _ = vms isV proj tree.flatten
                + (vms isV proj (tree.getD i []) + vms isV proj stash) := by rw [hfill]
            _ = (vms isV proj tree.flatten + vms isV proj stash)
                + vms isV proj (tree.getD i []) := by abel
        exact add_right_cancel h4
      · have hgetD : tree.getD i [] = [] := getD_beyond tree i (by omega)
        rw [hgetD]
        have hfs : fillSlots isV place (elig i) [] stash = ([], stash, 0) := rfl
        rw [hfs]
        simp only []
        rw [set_beyond tree i [] (by omega)]
        exact ih tree stash

theorem passOver_inv {α : Type} (isV : α → Bool) (place : α → α)
    (elig : Nat → α → Bool) (P : Nat → α → Prop)
    (hpl : ∀ i b, elig i b = true → P i (place b))
    (idxs : List Nat) (tree : List (List α)) (stash : List α)
    (ht : ∀ i, ∀ b ∈ tree.getD i [], isV b = true → P i b) :
    ∀ i, ∀ b ∈ (passOver isV place elig idxs tree stash).1.getD i [], isV b = true → P i b := by
  induction idxs generalizing tree stash with
  | nil => simpa [passOver] using ht
  | cons i rest ih =>
      rw [passOver]
      simp only []
      apply ih
      intro j b hb hbv
      rw [getD_set] at hb
      by_cases hj : j = i ∧ i < tree.length
      · rw [if_pos hj] at hb
        exact hj.1 ▸ fillSlots_inv isV place (elig i) (P i) (hpl i) _ stash (ht i) b hb hbv
      · rw [if_neg hj] at hb
        exact ht j b hb hbv

theorem passOver_stash_length {α : Type} (isV : α → Bool) (place : α → α)
    (elig : Nat → α → Bool) (idxs : List Nat) (tree : List (List α)) (stash : List α) :
    (passOver isV place elig idxs tree stash).2.1.length
      + (passOver isV place elig idxs tree stash).2.2 = stash.length := by
  induction idxs generalizing tree stash with
  | nil => simp [passOver]
  | cons i rest ih =>
      rw [passOver]
      simp only []
      have h1 := fillSlots_stash_length isV place (elig i) (tree.getD i []) stash
      have h2 := ih (tree.set i (fillSlots isV place (elig i) (tree.getD i []) stash).1)
        (fillSlots isV place (elig i) (tree.getD i []) stash).2.1
      omega

theorem drainBucket_conserve {α β : Type} (isV : α → Bool) (inval : α → α) (proj : α → β)
    (hinv : ∀ b, isV (inval b) = false) (slots : List α) :
    vms isV proj (drainBucket isV inval slots).1
      + vms isV proj (drainBucket isV inval slots).2 = vms isV proj slots := by
  induction slots with
  | nil => simp [drainBucket, vms_nil]
  | cons b bs ih =>
      rw [drainBucket]
      by_cases hb : isV b
      · rw [if_pos hb]
        simp only [vms_cons, hinv b, hb, if_pos, Bool.false_eq_true, if_false]
        rw [Multiset.add_cons, ih]
      · rw [if_neg hb]
        simp only [vms_cons, hb, Bool.false_eq_true, if_false]
        exact ih

theorem drainBucket_novalid {α : Type} (isV : α → Bool) (inval : α → α)
    (hinv : ∀ b, isV (inval b) = false) (slots : List α) :
    ∀ b ∈ (drainBucket isV inval slots).1, isV b = false := by
  induction slots with
  | nil => simp [drainBucket]
  | cons b bs ih =>
      rw [drainBucket]
      by_cases hb : isV b
      · rw [if_pos hb]
        intro x hx
        rcases List.mem_cons.mp hx with rfl | hx
        · exact hinv b
        · exact ih x hx
      · rw [if_neg hb]
        intro x hx
        rcases List.mem_cons.mp hx with rfl | hx
        · simpa using hb
        · exact ih x hx

theorem drainBucket_valid {α : Type} (isV : α → Bool) (inval : α → α) (slots : List α) :
    ∀ b ∈ (drainBucket isV inval slots).2, isV b = true := by
  induction slots with
  | nil => simp [drainBucket]
  | cons b bs ih =>
      rw [drainBucket]
      by_cases hb : isV b
      · rw [if_pos hb]
        intro x hx
        rcases List.mem_cons.mp hx with rfl | hx
        · exact hb
        · exact ih x hx
      · rw [if_neg hb]
        exact ih

theorem drainPath_conserve {α β : Type} (isV : α → Bool) (inval : α → α) (proj : α → β)
    (hinv : ∀ b, isV (inval b) = false) (idxs : List Nat) (tree : List (List α)) :
    vms isV proj (drainPath isV inval idxs tree).1.flatten
      + vms isV proj (drainPath isV inval idxs tree).2 = vms isV proj tree.flatten := by
  induction idxs generalizing tree with
  | nil => simp [drainPath, vms_nil]
  | cons i rest ih =>
      rw [drainPath]
      simp only [vms_append]
      by_cases hi : i < tree.length
      · have hflat := flatten_set_vms isV proj tree i
          (drainBucket isV inval (tree.getD i [])).1 hi
        have hb := drainBucket_conserve isV inval proj hinv (tree.getD i [])
        have hrec := ih (tree.set i (drainBucket isV inval (tree.getD i [])).1)
        have h4 : vms isV proj tree.flatten
              + vms isV proj (drainBucket isV inval (tree.getD i [])).1
            = (vms isV proj (tree.set i (drainBucket isV inval (tree.getD i [])).1).flatten
              + vms isV proj (drainBucket isV inval (tree.getD i [])).2)
              + vms isV proj (drainBucket isV inval (tree.getD i [])).1 := by
          rw [← hflat, ← hb]
          abel
        have h5 := add_right_cancel h4
        rw [h5, ← hrec]
        abel
      · have hgd : tree.getD i [] = [] := getD_beyond tree i (by omega)
        rw [hgd]
        have hdb : drainBucket isV inval ([] : List α) = ([], []) := rfl
        rw [hdb]
        simp only [vms_nil]
        rw [set_beyond tree i [] (by omega)]
        rw [zero_add]
        exact ih tree

/-!
Simple oblivious map, first `tree-map.hpp` variant: blocks carry
`valid`, `key`, encrypted `value`; the leaf assignment lives only in
the position map; `write_path` loops until a pass places nothing.
-/

/-- Stash-overflow error surfaced by the containers. -/
inductive StashErr where
  | overflow : StashErr
deriving DecidableEq

/-- Block of the simple map (`Block<K,V>` with `valid`, `key`, `value`). -/
structure ABlk where
  valid : Bool
  key : Nat
  value : Bytes
deriving DecidableEq

def aValid (b : ABlk) : Bool := b.valid

def aInval (b : ABlk) : ABlk := { b with valid := false }

/-- State of the simple map: ORAM tree (1-indexed, slot 0 unused and
all-dummy), stash, position map, parameters and random supply. -/
structure ASt where
  height : Nat
  stashLimit : Nat
  cap : Nat
  tree : List (List ABlk)
  stash : List ABlk
  posMap : List (Nat × Nat)
  rng : List Nat
deriving DecidableEq

/-- Lookup in the client-side position map (`std::unordered_map::find`). -/
def pmGet (m : List (Nat × Nat)) (k : Nat) : Option Nat :=
  match m with
  | [] => none
  | (k', v) :: rest => if k' = k then some v else pmGet rest k

/-- Update of the position map (`posMap[key] = leaf`). -/
def pmSet (m : List (Nat × Nat)) (k v : Nat) : List (Nat × Nat) :=
  match m with
  | [] => [(k, v)]
  | (k', v') :: rest => if k' = k then (k, v) :: rest else (k', v') :: pmSet rest k v

/-- Position-map access with default, mirroring
`posMap.count(key) ? posMap[key] : 0` in `write_path`. -/
def pmGetD (m : List (Nat × Nat)) (k d : Nat) : Nat := (pmGet m k).getD d

/-- Fresh simple map (constructor): `numBuckets = 2^(h+1) - 1` buckets
of `cap` dummy blocks each, 1-indexed with slot 0 unused. -/
def initA (h L cap : Nat) (rng : List Nat) : ASt :=
  { height := h, stashLimit := L, cap := cap,
    tree := List.replicate (2 ^ (h + 1) - 1 + 1) (List.replicate cap ⟨false, 0, []⟩),
    stash := [], posMap := [], rng := rng }

/-- Simple-map `read_path`: drain the valid blocks of every bucket on
the path into the stash, then fail if the stash exceeds its limit. -/
def readPathA (st : ASt) (path : List Nat) : Option StashErr × ASt :=
  let r := drainPath aValid aInval path st.tree
  let st' := { st with tree := r.1, stash := st.stash ++ r.2 }
  if st'.stash.length > st'.stashLimit then (some .overflow, st') else (none, st')

/-- Eligibility used by the simple-map `write_path`: the block is valid
and the bucket index lies on the path to the block's position-map leaf
(default 0 when the key is absent). -/
def eligA (h : Nat) (pm : List (Nat × Nat)) (idx : Nat) (b : ABlk) : Bool :=
  b.valid && decide (idx ∈ getPathIndices h (pmGetD pm b.key 0))

/-- One pass of the simple-map `write_path` over the accessed path. -/
def writePassA (h : Nat) (pm : List (Nat × Nat)) (path : List Nat)
    (tree : List (List ABlk)) (stash : List ABlk) : List (List ABlk) × List ABlk × Nat :=
  passOver aValid id (eligA h pm) path tree stash

/-- The unbounded `while (evictionPerformed)` loop of the simple-map
`write_path`, with explicit fuel: run a pass, stop when it placed
nothing. -/
def writeLoopA (h : Nat) (pm : List (Nat × Nat)) (path : List Nat) :
    Nat → List (List ABlk) → List ABlk → List (List ABlk) × List ABlk
  | 0, tree, stash => (tree, stash)
  | fuel + 1, tree, stash =>
      if (writePassA h pm path tree stash).2.2 = 0 then
        ((writePassA h pm path tree stash).1, (writePassA h pm path tree stash).2.1)
      else
        writeLoopA h pm path fuel (writePassA h pm path tree stash).1
          (writePassA h pm path tree stash).2.1

/-- Simple-map `write_path`; the fuel `|stash| + 1` bounds the loop
because every continuing pass removes at least one stash block
(see `map_writepath_terminates_c10`). -/
def writePathA (st : ASt) (path : List Nat) : ASt :=
  let r := writeLoopA st.height st.posMap path (st.stash.length + 1) st.tree st.stash
  { st with tree := r.1, stash := r.2 }

/-- Simple-map `oblivious_insert`: remap the key to a fresh leaf, read
that path, append the encrypted block to the stash, fail on overflow,
then evict along the path. -/
def insertA (enc : Bytes → Bytes) (st : ASt) (k : Nat) (v : Bytes) : Option StashErr × ASt :=
  let d := drawR st.rng (2 ^ st.height)
  let st1 := { st with posMap := pmSet st.posMap k d.1, rng := d.2 }
  let path := getPathIndices st1.height d.1
  let r := readPathA st1 path
  match r.1 with
  | some e => (some e, r.2)
  | none =>
      let st2 := { r.2 with stash := r.2.stash ++ [⟨true, k, enc v⟩] }
      if st2.stash.length > st2.stashLimit then (some .overflow, st2)
      else (none, writePathA st2 path)

/-- Result of the simple-map `oblivious_lookup`, instrumented with the
list of bucket indices physically read (`accessed`). -/
structure ALookupRes where
  err : Option StashErr
  found : Bool
  value : Option Bytes
  accessed : List Nat
  state : ASt
deriving DecidableEq

/-- Simple-map `oblivious_lookup`: absent keys return immediately;
otherwise read the mapped path, scan the stash for the first valid
block with the key, decrypt, remap on hit, and evict. -/
def lookupA (dec : Bytes → Bytes) (st : ASt) (k : Nat) : ALookupRes :=
  match pmGet st.posMap k with
  | none => ⟨none, false, none, [], st⟩
  | some leaf =>
      let path := getPathIndices st.height leaf
      let r := readPathA st path
      match r.1 with
      | some e => ⟨some e, false, none, path, r.2⟩
      | none =>
          match r.2.stash.find? (fun b => b.valid && b.key == k) with
          | some blk =>
              let d := drawR r.2.rng (2 ^ r.2.height)
              let st1 := { r.2 with posMap := pmSet r.2.posMap k d.1, rng := d.2 }
              ⟨none, true, some (dec blk.value), path, writePathA st1 path⟩
          | none => ⟨none, false, none, path, writePathA r.2 path⟩

/-- Number of valid blocks with key `k` across tree and stash. -/
def keyCountA (st : ASt) (k : Nat) : Nat :=
  ((st.tree.flatten ++ st.stash).filter (fun b => b.valid && b.key == k)).length

/-!
Second `tree-map.hpp` variant: identical data model, but `write_path`
is bounded by `MAX_EVICTION_ATTEMPTS = 10` and fills every empty slot
on the accessed path with `stash.back()` regardless of the block's
assigned leaf.
-/

/-- One bucket of the second variant's `write_path`: for every empty
slot, move `stash.back()` in (no eligibility check). -/
def fillSlotsB : List ABlk → List ABlk → List ABlk × List ABlk × Nat
  | [], stash => ([], stash, 0)
  | s :: ss, stash =>
      if aValid s then
        let r := fillSlotsB ss stash
        (s :: r.1, r.2.1, r.2.2)
      else
        match stash.getLast? with
        | some b =>
            let r := fillSlotsB ss stash.dropLast
            (b :: r.1, r.2.1, r.2.2 + 1)
        | none =>
            let r := fillSlotsB ss stash
            (s :: r.1, r.2.1, r.2.2)

/-- One pass of the second variant's `write_path` over the path. -/
def passB : List Nat → List (List ABlk) → List ABlk → List (List ABlk) × List ABlk × Nat
  | [], tree, stash => (tree, stash, 0)
  | i :: rest, tree, stash =>
      let r := fillSlotsB (tree.getD i []) stash
      let r2 := passB rest (tree.set i r.1) r.2.1
      (r2.1, r2.2.1, r.2.2 + r2.2.2)

/-- The `do { ... } while (evictionPerformed && attempts < 10)` loop of
the second variant's `write_path`. -/
def writeLoopB (path : List Nat) : Nat → List (List ABlk) → List ABlk → List (List ABlk) × List ABlk
  | 0, tree, stash => (tree, stash)
  | fuel + 1, tree, stash =>
      if (passB path tree stash).2.2 = 0 then
        ((passB path tree stash).1, (passB path tree stash).2.1)
      else
        writeLoopB path fuel (passB path tree stash).1 (passB path tree stash).2.1

/-- Second variant's `write_path` (at most 10 passes). -/
def writePathB (st : ASt) (path : List Nat) : ASt :=
  let r := writeLoopB path 10 st.tree st.stash
  { st with tree := r.1, stash := r.2 }

/-- Second variant's `oblivious_insert` (same sequence as the first
variant; only the eviction strategy differs). -/
def insertB (enc : Bytes → Bytes) (st : ASt) (k : Nat) (v : Bytes) : Option StashErr × ASt :=
  let d := drawR st.rng (2 ^ st.height)
  let st1 := { st with posMap := pmSet st.posMap k d.1, rng := d.2 }
  let path := getPathIndices st1.height d.1
  let r := readPathA st1 path
  match r.1 with
  | some e => (some e, r.2)
  | none =>
      let st2 := { r.2 with stash := r.2.stash ++ [⟨true, k, enc v⟩] }
      if st2.stash.length > st2.stashLimit then (some .overflow, st2)
      else (none, writePathB st2 path)

/-- Path-membership invariant for the map variants: every valid block
in a tree bucket sits on the path from the root to its position-map
leaf (the claim's statement for blocks without a `leaf` field). -/
def mapPathInv (st : ASt) : Prop :=
  ∀ i : Nat, ∀ b ∈ st.tree.getD i [], b.valid = true →
    i ∈ getPathIndices st.height (pmGetD st.posMap b.key 0)

/-- Multiset of real (valid) blocks across tree and stash of the simple map. -/
def aBlocks (st : ASt) : Multiset ABlk :=
  vms aValid id st.tree.flatten + vms aValid id st.stash

theorem pmGet_pmSet (m : List (Nat × Nat)) (k v : Nat) : pmGet (pmSet m k v) k = some v := by
  induction m with
  | nil => simp [pmSet, pmGet]
  | cons p rest ih =>
      obtain ⟨k', v'⟩ := p
      rw [pmSet]
      by_cases h : k' = k
      · rw [if_pos h, pmGet, if_pos rfl]
      · rw [if_neg h, pmGet, if_neg h]
        exact ih

theorem readPathA_snd (st : ASt) (path : List Nat) :
    (readPathA st path).2
      = { st with tree := (drainPath aValid aInval path st.tree).1,
                  stash := st.stash ++ (drainPath aValid aInval path st.tree).2 } := by
  simp only [readPathA]
  split <;> rfl

theorem readPathA_conserve (st : ASt) (path : List Nat) :
    aBlocks (readPathA st path).2 = aBlocks st := by
  rw [readPathA_snd]
  simp only [aBlocks, vms_append]
  have h := drainPath_conserve aValid aInval id (fun _ => rfl) path st.tree
  calc vms aValid id (drainPath aValid aInval path st.tree).1.flatten
        + (vms aValid id st.stash + vms aValid id (drainPath aValid aInval path st.tree).2)
      = (vms aValid id (drainPath aValid aInval path st.tree).1.flatten
        + vms aValid id (drainPath aValid aInval path st.tree).2) + vms aValid id st.stash := by
        abel
    _ = vms aValid id st.tree.flatten + vms aValid id st.stash := by rw [h]

theorem writeLoopA_conserve (h : Nat) (pm : List (Nat × Nat)) (path : List Nat) :
    ∀ (fuel : Nat) (tree : List (List ABlk)) (stash : List ABlk),
    vms aValid id (writeLoopA h pm path fuel tree stash).1.flatten
      + vms aValid id (writeLoopA h pm path fuel tree stash).2
      = vms aValid id tree.flatten + vms aValid id stash := by
  intro fuel
  induction fuel with
  | zero => intro tree stash; rfl
  | succ f ih =>
      intro tree stash
      rw [writeLoopA]
      by_cases hz : (writePassA h pm path tree stash).2.2 = 0
      · rw [if_pos hz]
        exact passOver_conserve aValid id (eligA h pm) id (fun _ => rfl) (fun _ => rfl)
          path tree stash
      · rw [if_neg hz]
        rw [ih]
        exact passOver_conserve aValid id (eligA h pm) id (fun _ => rfl) (fun _ => rfl)
          path tree stash

theorem writePathA_conserve (st : ASt) (path : List Nat) :
    aBlocks (writePathA st path) = aBlocks st := by
  simp only [writePathA, aBlocks]
  exact writeLoopA_conserve st.height st.posMap path (st.stash.length + 1) st.tree st.stash

theorem writePathA_posMap (st : ASt) (path : List Nat) :
    (writePathA st path).posMap = st.posMap := rfl

theorem insertA_master (enc : Bytes → Bytes) (st : ASt) (k : Nat) (v : Bytes) :
    (insertA enc st k v).2.posMap = pmSet st.posMap k (drawR st.rng (2 ^ st.height)).1
    ∧ ((insertA enc st k v).1 = some StashErr.overflow
         ∧ aBlocks (insertA enc st k v).2 = aBlocks st
       ∨ aBlocks (insertA enc st k v).2 = (⟨true, k, enc v⟩ : ABlk) ::ₘ aBlocks st) := by
  set d := drawR st.rng (2 ^ st.height) with hd
  set st1 : ASt := { st with posMap := pmSet st.posMap k d.1, rng := d.2 } with hst1
  set path := getPathIndices st1.height d.1 with hpath
  set st2 : ASt := { (readPathA st1 path).2 with
      stash := (readPathA st1 path).2.stash ++ [(⟨true, k, enc v⟩ : ABlk)] } with hst2
  have hins : insertA enc st k v
      = match (readPathA st1 path).1 with
        | some e => (some e, (readPathA st1 path).2)
        | none =>
            if st2.stash.length > st2.stashLimit
            then (some .overflow, st2)
            else (none, writePathA st2 path) := rfl
  have hb1 : aBlocks st1 = aBlocks st := rfl
  have hpm1 : st1.posMap = pmSet st.posMap k d.1 := rfl
  have hrpm : (readPathA st1 path).2.posMap = st1.posMap := by rw [readPathA_snd]
  have hrb : aBlocks (readPathA st1 path).2 = aBlocks st := by
    rw [readPathA_conserve, hb1]
  have hb2 : aBlocks st2 = (⟨true, k, enc v⟩ : ABlk) ::ₘ aBlocks (readPathA st1 path).2 := by
    rw [hst2]
    simp only [aBlocks, vms_append]
    have hone : vms aValid id [(⟨true, k, enc v⟩ : ABlk)]
        = (⟨true, k, enc v⟩ : ABlk) ::ₘ 0 := rfl
    rw [hone]
    have hsw : ∀ X Y : Multiset ABlk, X + (Y + ((⟨true, k, enc v⟩ : ABlk) ::ₘ 0))
        = (⟨true, k, enc v⟩ : ABlk) ::ₘ (X + Y) := by
      intro X Y
      rw [← Multiset.singleton_add, ← Multiset.singleton_add]
      abel
    exact hsw _ _
  cases hE : (readPathA st1 path).1 with
  | some e =>
      cases e
      have hx : insertA enc st k v = (some StashErr.overflow, (readPathA st1 path).2) := by
        rw [hins, hE]
      rw [hx]
      exact ⟨hrpm.trans hpm1, Or.inl ⟨rfl, hrb⟩⟩
  | none =>
      by_cases hov : st2.stash.length > st2.stashLimit
      · have hx : insertA enc st k v = (some StashErr.overflow, st2) := by
          rw [hins, hE]
          rw [if_pos hov]
        rw [hx]
        exact ⟨hrpm.trans hpm1, Or.inr (hb2.trans (by rw [hrb]))⟩
      · have hx : insertA enc st k v = (none, writePathA st2 path) := by
          rw [hins, hE]
          rw [if_neg hov]
        rw [hx]
        exact ⟨(writePathA_posMap st2 path).trans (hrpm.trans hpm1),
          Or.inr ((writePathA_conserve st2 path).trans (hb2.trans (by rw [hrb])))⟩

/-- Counterexample to claim C2 as stated: with tree height 1, bucket
capacity 1 and leaves drawn `0, 1`, two inserts of key 5 (values `[0]`
then `[1]`) leave two real blocks with key 5, and the following lookup
returns the first value `[0]`, not the overwritten `[1]`. -/
theorem map_overwrite_c2_counterexample :
    (lookupA id (insertA id (insertA id (initA 1 100 1 [0, 1, 0]) 5 [0]).2 5 [1]).2 5).value
        = some [0]
    ∧ (lookupA id (insertA id (insertA id (initA 1 100 1 [0, 1, 0]) 5 [0]).2 5 [1]).2 5).value
        ≠ some [1]
    ∧ keyCountA (insertA id (insertA id (initA 1 100 1 [0, 1, 0]) 5 [0]).2 5 [1]).2 5 = 2 := by
  decide

/-- Claim C2, amended.  `oblivious_insert` never removes an existing
block: after an insert that returns without error, the multiset of real
blocks is exactly the entry multiset plus the new block (so a previous
block with the same key survives, and a later lookup may return the
older value, as the counterexample shows); the position map is repointed
to the freshly drawn leaf. -/
theorem map_insert_no_overwrite_c2 (enc : Bytes → Bytes) (st : ASt) (k : Nat) (v : Bytes)
    (h : (insertA enc st k v).1 = none) :
    aBlocks (insertA enc st k v).2 = (⟨true, k, enc v⟩ : ABlk) ::ₘ aBlocks st
    ∧ (insertA enc st k v).2.posMap = pmSet st.posMap k (drawR st.rng (2 ^ st.height)).1 := by
  obtain ⟨hpm, hca⟩ := insertA_master enc st k v
  refine ⟨?_, hpm⟩
  rcases hca with ⟨herr, _⟩ | hok
  · rw [h] at herr; cases herr
  · exact hok

/-- Witness for the amended C2 at a concrete insert that succeeds. -/
theorem map_insert_no_overwrite_c2_witness :
    aBlocks (insertA id (initA 1 100 1 [0]) 5 [0]).2
        = (⟨true, 5, [0]⟩ : ABlk) ::ₘ aBlocks (initA 1 100 1 [0])
    ∧ (insertA id (initA 1 100 1 [0]) 5 [0]).2.posMap
        = pmSet (initA 1 100 1 [0]).posMap 5
            (drawR (initA 1 100 1 [0]).rng (2 ^ (initA 1 100 1 [0]).height)).1 :=
  map_insert_no_overwrite_c2 id (initA 1 100 1 [0]) 5 [0] (by decide)

/-- Counterexample to claim C4 as stated: looking up a key absent from
the position map reads no bucket at all (`accessed = []`) and leaves the
container untouched, instead of performing a dummy path access. -/
theorem map_absent_lookup_c4_counterexample :
    (lookupA id (initA 1 100 1 []) 3).accessed = []
    ∧ (lookupA id (initA 1 100 1 []) 3).found = false
    ∧ (lookupA id (initA 1 100 1 []) 3).state = initA 1 100 1 [] := by
  decide

/-- Claim C4, amended.  `oblivious_lookup` on a key absent from the
position map returns not-found immediately: no bucket is read, no
eviction runs, and the state (tree, stash, position map, random supply)
is returned unchanged. -/
theorem map_absent_lookup_c4 (dec : Bytes → Bytes) (st : ASt) (k : Nat)
    (h : pmGet st.posMap k = none) :
    lookupA dec st k = ⟨none, false, none, [], st⟩ := by
  rw [lookupA, h]

/-- Witness for the amended C4 on a fresh map and key 3. -/
theorem map_absent_lookup_c4_witness :
    lookupA id (initA 1 100 1 []) 3 = ⟨none, false, none, [], initA 1 100 1 []⟩ :=
  map_absent_lookup_c4 id (initA 1 100 1 []) 3 (by decide)

/-- Counterexample to claim C5 as stated: in the second map variant,
`write_path` fills empty slots with `stash.back()` without checking the
block's assigned leaf.  With height 1, capacity 1 and leaves `0, 1`,
inserting key 1 (leaf 0) and then key 2 (leaf 1) parks the key-1 block
in bucket 2, which is not on the path `[1]` to its assigned leaf 0. -/
theorem map_path_c5_counterexample :
    ¬ mapPathInv (insertB id (insertB id (initA 1 100 1 [0, 1]) 1 [5]).2 2 [6]).2 := by
  intro h
  have h2 := h 2 ⟨true, 1, [5]⟩ (by decide) (by decide)
  exact absurd h2 (by decide)

/-- Counterexample to claim C6 as stated: with a stash limit of 0, the
insert surfaces `StashOverflow`, yet the position map has been repointed
and the newly created block sits in the stash — the logical change was
not rolled back to the entry state. -/
theorem map_overflow_rollback_c6_counterexample :
    (insertA id (initA 1 0 1 [0]) 7 [3]).1 = some StashErr.overflow
    ∧ (insertA id (initA 1 0 1 [0]) 7 [3]).2.posMap ≠ (initA 1 0 1 [0]).posMap
    ∧ aBlocks (insertA id (initA 1 0 1 [0]) 7 [3]).2 ≠ aBlocks (initA 1 0 1 [0]) := by
  decide

/-- Claim C6, amended.  When `oblivious_insert` surfaces
`StashOverflow`, the container stays structurally consistent — every
real block present at entry is still present (the multiset of real
blocks is the entry multiset, possibly plus the new block) — but the
logical change is not rolled back: the position map keeps the fresh
mapping for the inserted key. -/
theorem map_overflow_rollback_c6 (enc : Bytes → Bytes) (st : ASt) (k : Nat) (v : Bytes)
    (h : (insertA enc st k v).1 = some StashErr.overflow) :
    (insertA enc st k v).2.posMap = pmSet st.posMap k (drawR st.rng (2 ^ st.height)).1
    ∧ (aBlocks (insertA enc st k v).2 = aBlocks st
       ∨ aBlocks (insertA enc st k v).2 = (⟨true, k, enc v⟩ : ABlk) ::ₘ aBlocks st) := by
  obtain ⟨hpm, hca⟩ := insertA_master enc st k v
  refine ⟨hpm, ?_⟩
  rcases hca with ⟨_, heq⟩ | hok
  · exact Or.inl heq
  · exact Or.inr hok

/-- Witness for the amended C6 at a concrete overflowing insert. -/
theorem map_overflow_rollback_c6_witness :
    (insertA id (initA 1 0 1 [0]) 7 [3]).2.posMap
        = pmSet (initA 1 0 1 [0]).posMap 7
            (drawR (initA 1 0 1 [0]).rng (2 ^ (initA 1 0 1 [0]).height)).1
    ∧ (aBlocks (insertA id (initA 1 0 1 [0]) 7 [3]).2 = aBlocks (initA 1 0 1 [0])
       ∨ aBlocks (insertA id (initA 1 0 1 [0]) 7 [3]).2
           = (⟨true, 7, [3]⟩ : ABlk) ::ₘ aBlocks (initA 1 0 1 [0])) :=
  map_overflow_rollback_c6 id (initA 1 0 1 [0]) 7 [3] (by decide)

theorem writeLoopA_stable (h : Nat) (pm : List (Nat × Nat)) (path : List Nat) :
    ∀ (f₁ f₂ : Nat) (tree : List (List ABlk)) (stash : List ABlk),
      stash.length < f₁ → stash.length < f₂ →
      writeLoopA h pm path f₁ tree stash = writeLoopA h pm path f₂ tree stash := by
  intro f₁
  induction f₁ with
  | zero => intro f₂ tree stash h1 _; omega
  | succ a ih =>
      intro f₂ tree stash h1 h2
      obtain ⟨b, rfl⟩ : ∃ b, f₂ = b + 1 := ⟨f₂ - 1, by omega⟩
      rw [writeLoopA, writeLoopA]
      by_cases hz : (writePassA h pm path tree stash).2.2 = 0
      · rw [if_pos hz, if_pos hz]
      · rw [if_neg hz, if_neg hz]
        have hlen : (writePassA h pm path tree stash).2.1.length
            + (writePassA h pm path tree stash).2.2 = stash.length :=
          passOver_stash_length aValid id (eligA h pm) path tree stash
        exact ih b _ _ (by omega) (by omega)

/-- Claim C10.  The unbounded eviction loop of the first map variant's
`write_path` terminates on every tree, stash and path: any fuel beyond
`|stash| + 1` gives the same result, because every iteration that
continues has placed at least one block, strictly shrinking the stash,
and no iteration adds blocks to it. -/
theorem map_writepath_terminates_c10 (h : Nat) (pm : List (Nat × Nat)) (path : List Nat)
    (tree : List (List ABlk)) (stash : List ABlk) (extra : Nat) :
    writeLoopA h pm path (stash.length + 1 + extra) tree stash
      = writeLoopA h pm path (stash.length + 1) tree stash :=
  writeLoopA_stable h pm path _ _ tree stash (by omega) (by omega)

/-!
Simple oblivious queue (`tree-queue.hpp`): blocks carry their assigned
leaf; no position map; every operation accesses a freshly drawn random
path; `write_path` and `full_eviction` loop while the stash holds more
than half its limit, with remap-on-stall in `full_eviction`.
-/

/-- Queue block (`QueueBlock<T>`): validity, encrypted payload, leaf. -/
structure QBlk where
  valid : Bool
  data : Bytes
  leaf : Nat
deriving DecidableEq

def qValid (b : QBlk) : Bool := b.valid

def qInval (b : QBlk) : QBlk := { b with valid := false }

/-- State of the simple queue. -/
structure QSt where
  height : Nat
  stashLimit : Nat
  cap : Nat
  tree : List (List QBlk)
  stash : List QBlk
  rng : List Nat
deriving DecidableEq

/-- Number of buckets of a tree of height `h` (`compute_numBuckets`). -/
def numBucketsQ (h : Nat) : Nat := 2 ^ (h + 1) - 1

/-- Fresh queue (constructor): 1-indexed buckets of `cap` dummies. -/
def initQ (h L cap : Nat) (rng : List Nat) : QSt :=
  { height := h, stashLimit := L, cap := cap,
    tree := List.replicate (numBucketsQ h + 1) (List.replicate cap ⟨false, [], 0⟩),
    stash := [], rng := rng }

/-- Eligibility of the queue eviction: the bucket index lies on the path
to the block's own `leaf` field (validity is not checked, as in the
source's `find_if`). -/
def eligQ (h idx : Nat) (b : QBlk) : Bool := decide (idx ∈ getPathIndices h b.leaf)

/-- Remap every stash block to a freshly drawn leaf (the no-progress
branch of `full_eviction`), consuming one draw per block in order. -/
def remapStashQ (h : Nat) : List QBlk → List Nat → List QBlk × List Nat
  | [], rng => ([], rng)
  | b :: bs, rng =>
      ({ b with leaf := (drawR rng (2 ^ h)).1 }
          :: (remapStashQ h bs (drawR rng (2 ^ h)).2).1,
        (remapStashQ h bs (drawR rng (2 ^ h)).2).2)

def remapAllQ (st : QSt) : QSt :=
  { st with stash := (remapStashQ st.height st.stash st.rng).1,
            rng := (remapStashQ st.height st.stash st.rng).2 }

/-- One placement pass of `full_eviction` over every bucket `1..N`. -/
def fullEvictPassQ (st : QSt) : QSt × Nat :=
  (( { st with
        tree := (passOver qValid id (eligQ st.height)
          (List.range' 1 (numBucketsQ st.height)) st.tree st.stash).1,
        stash := (passOver qValid id (eligQ st.height)
          (List.range' 1 (numBucketsQ st.height)) st.tree st.stash).2.1 } : QSt),
    (passOver qValid id (eligQ st.height)
      (List.range' 1 (numBucketsQ st.height)) st.tree st.stash).2.2)

/-- The `while (stash.size() > stashLimit * 0.5)` loop of the queue's
`full_eviction`: pass over the whole tree; on no progress remap all
stash leaves and stop (remapping cannot shrink the stash, so the
`if (stash.size() >= prevSize) break` that follows always fires). -/
def fullEvictLoopQ : Nat → QSt → QSt
  | 0, st => st
  | fuel + 1, st =>
      if 2 * st.stash.length > st.stashLimit then
        if (fullEvictPassQ st).2 = 0 ∨ (fullEvictPassQ st).1.stash.length ≥ st.stash.length then
          if (remapAllQ (fullEvictPassQ st).1).stash.length ≥ st.stash.length then
            remapAllQ (fullEvictPassQ st).1
          else fullEvictLoopQ fuel (remapAllQ (fullEvictPassQ st).1)
        else fullEvictLoopQ fuel (fullEvictPassQ st).1
      else st

/-- Queue `full_eviction`; the fuel `|stash| + 1` bounds the loop since
every continuing iteration strictly shrinks the stash. -/
def fullEvictionQ (st : QSt) : QSt := fullEvictLoopQ (st.stash.length + 1) st

/-- One placement pass of the queue's `write_path` over the accessed path. -/
def writePassQ (st : QSt) (path : List Nat) : QSt × Nat :=
  (( { st with
        tree := (passOver qValid id (eligQ st.height) path st.tree st.stash).1,
        stash := (passOver qValid id (eligQ st.height) path st.tree st.stash).2.1 } : QSt),
    (passOver qValid id (eligQ st.height) path st.tree st.stash).2.2)

/-- The `while (stash.size() > stashLimit * 0.5)` loop of the queue's
`write_path`: pass over the path; if nothing was placed, run
`full_eviction`; stop when the stash did not shrink. -/
def writeLoopQ (path : List Nat) : Nat → QSt → QSt
  | 0, st => st
  | fuel + 1, st =>
      if 2 * st.stash.length > st.stashLimit then
        if (writePassQ st path).2 = 0 then
          if (fullEvictionQ (writePassQ st path).1).stash.length ≥ st.stash.length then
            fullEvictionQ (writePassQ st path).1
          else writeLoopQ path fuel (fullEvictionQ (writePassQ st path).1)
        else
          if (writePassQ st path).1.stash.length ≥ st.stash.length then
            (writePassQ st path).1
          else writeLoopQ path fuel (writePassQ st path).1
      else st

/-- Queue `write_path`. -/
def writePathQ (st : QSt) (path : List Nat) : QSt :=
  writeLoopQ path (st.stash.length + 1) st

/-- Pre-check of the queue's `read_path`: run `full_eviction` when the
stash exceeds three quarters of its limit. -/
def readPreQ (st : QSt) : QSt :=
  if 4 * st.stash.length > 3 * st.stashLimit then fullEvictionQ st else st

/-- Queue `read_path`: optional pre-eviction, drain the path into the
stash, fail if the stash exceeds its limit. -/
def readPathQ (st : QSt) (path : List Nat) : Option StashErr × QSt :=
  if ((readPreQ st).stash ++ (drainPath qValid qInval path (readPreQ st).tree).2).length
      > (readPreQ st).stashLimit then
    (some .overflow,
      { readPreQ st with
          tree := (drainPath qValid qInval path (readPreQ st).tree).1,
          stash := (readPreQ st).stash ++ (drainPath qValid qInval path (readPreQ st).tree).2 })
  else
    (none,
      { readPreQ st with
          tree := (drainPath qValid qInval path (readPreQ st).tree).1,
          stash := (readPreQ st).stash ++ (drainPath qValid qInval path (readPreQ st).tree).2 })

/-- State after the leaf draw that starts every queue operation. -/
def opDrawStQ (st : QSt) : QSt := { st with rng := (drawR st.rng (2 ^ st.height)).2 }

/-- Path of the leaf drawn at the start of a queue operation. -/
def opPathQ (st : QSt) : List Nat :=
  getPathIndices st.height (drawR st.rng (2 ^ st.height)).1

/-- Append the freshly encrypted block to the stash (`stash.push_back`). -/
def pushedQ (enc : Bytes → Bytes) (v : Bytes) (leaf : Nat) (st : QSt) : QSt :=
  { st with stash := st.stash ++ [⟨true, enc v, leaf⟩] }

/-- Queue `oblivious_push`: draw a leaf, read that path, evict along it,
append the encrypted block, run a full eviction, fail on overflow. -/
def pushQ (enc : Bytes → Bytes) (st : QSt) (v : Bytes) : Option StashErr × QSt :=
  if (readPathQ (opDrawStQ st) (opPathQ st)).1 = none then
    if (fullEvictionQ (pushedQ enc v (drawR st.rng (2 ^ st.height)).1
          (writePathQ (readPathQ (opDrawStQ st) (opPathQ st)).2 (opPathQ st)))).stash.length
        > (fullEvictionQ (pushedQ enc v (drawR st.rng (2 ^ st.height)).1
          (writePathQ (readPathQ (opDrawStQ st) (opPathQ st)).2 (opPathQ st)))).stashLimit then
      (some .overflow,
        fullEvictionQ (pushedQ enc v (drawR st.rng (2 ^ st.height)).1
          (writePathQ (readPathQ (opDrawStQ st) (opPathQ st)).2 (opPathQ st))))
    else
      (none,
        fullEvictionQ (pushedQ enc v (drawR st.rng (2 ^ st.height)).1
          (writePathQ (readPathQ (opDrawStQ st) (opPathQ st)).2 (opPathQ st))))
  else ((readPathQ (opDrawStQ st) (opPathQ st)).1, (readPathQ (opDrawStQ st) (opPathQ st)).2)

/-- Queue `oblivious_pop`: draw a leaf, read that path, remove the stash
front (if any) and decrypt it when valid, evict along the path, run a
full eviction. -/
def popQ (dec : Bytes → Bytes) (st : QSt) : Option StashErr × Option Bytes × QSt :=
  if (readPathQ (opDrawStQ st) (opPathQ st)).1 = none then
    match (readPathQ (opDrawStQ st) (opPathQ st)).2.stash with
    | [] =>
        (none, none,
          fullEvictionQ (writePathQ (readPathQ (opDrawStQ st) (opPathQ st)).2 (opPathQ st)))
    | b :: rest =>
        (none, if b.valid then some (dec b.data) else none,
          fullEvictionQ (writePathQ
            { (readPathQ (opDrawStQ st) (opPathQ st)).2 with stash := rest } (opPathQ st)))
  else ((readPathQ (opDrawStQ st) (opPathQ st)).1, none, (readPathQ (opDrawStQ st) (opPathQ st)).2)

/-- Client operations of the queue. -/
inductive QOp where
  | push : Bytes → QOp
  | pop : QOp
deriving DecidableEq

/-- Run a sequence of queue operations from a state (errors propagate
the state the operation left behind, as the C++ object outlives the
exception). -/
def execQ (enc dec : Bytes → Bytes) : QSt → List QOp → QSt
  | st, [] => st
  | st, QOp.push v :: rest => execQ enc dec (pushQ enc st v).2 rest
  | st, QOp.pop :: rest => execQ enc dec (popQ dec st).2.2 rest

/-- Path-membership invariant of the queue: every valid block in a tree
bucket lies on the path from the root to its `leaf` field. -/
def qPathInv (st : QSt) : Prop :=
  ∀ i : Nat, ∀ b ∈ st.tree.getD i [], b.valid = true → i ∈ getPathIndices st.height b.leaf

/-- Multiset of real blocks (with all fields) across tree and stash. -/
def qBlocksFull (st : QSt) : Multiset QBlk :=
  vms qValid id st.tree.flatten + vms qValid id st.stash

/-- Multiset of the payloads of real blocks across tree and stash. -/
def qData (st : QSt) : Multiset Bytes :=
  vms qValid (fun b => b.data) st.tree.flatten + vms qValid (fun b => b.data) st.stash

/-- Push every value of the list in order. -/
def pushAll (enc : Bytes → Bytes) : QSt → List Bytes → QSt
  | st, [] => st
  | st, v :: rest => pushAll enc (pushQ enc st v).2 rest

/-- Pop `n` times, collecting the returned values in order. -/
def popList (dec : Bytes → Bytes) : QSt → Nat → List (Option Bytes)
  | _, 0 => []
  | st, n + 1 => (popQ dec st).2.1 :: popList dec (popQ dec st).2.2 n

theorem drainBucket_noop {α : Type} (isV : α → Bool) (inval : α → α) (slots : List α)
    (h : ∀ b ∈ slots, isV b = false) : drainBucket isV inval slots = (slots, []) := by
  induction slots with
  | nil => rfl
  | cons b bs ih =>
      rw [drainBucket, ih (fun x hx => h x (List.mem_cons_of_mem _ hx)),
        if_neg (by simp [h b (List.mem_cons_self b bs)])]

theorem drainPath_noop {α : Type} (isV : α → Bool) (inval : α → α)
    (idxs : List Nat) (tree : List (List α))
    (h : ∀ i, ∀ b ∈ tree.getD i [], isV b = false) :
    drainPath isV inval idxs tree = (tree, []) := by
  induction idxs generalizing tree with
  | nil => rfl
  | cons i rest ih =>
      rw [drainPath]
      have h1 : (drainBucket isV inval (tree.getD i [])).1 = tree.getD i [] := by
        rw [drainBucket_noop isV inval _ (h i)]
      have h2 : (drainBucket isV inval (tree.getD i [])).2 = [] := by
        rw [drainBucket_noop isV inval _ (h i)]
      rw [h1, h2, set_getD_self, ih tree h]
      rfl

theorem fullEvictionQ_noop (st : QSt) (h : ¬ 2 * st.stash.length > st.stashLimit) :
    fullEvictionQ st = st := by
  rw [fullEvictionQ, fullEvictLoopQ, if_neg h]

theorem writePathQ_noop (st : QSt) (path : List Nat)
    (h : ¬ 2 * st.stash.length > st.stashLimit) : writePathQ st path = st := by
  rw [writePathQ, writeLoopQ, if_neg h]

theorem readPreQ_noop (st : QSt) (h : ¬ 4 * st.stash.length > 3 * st.stashLimit) :
    readPreQ st = st := by
  rw [readPreQ, if_neg h]

/-- Trees with no valid block at all (fresh queue, or all blocks held in
the stash). -/
def allInvalidTree (st : QSt) : Prop :=
  ∀ i : Nat, ∀ b ∈ st.tree.getD i [], qValid b = false

theorem readPathQ_noop (st : QSt) (path : List Nat) (hinv : allInvalidTree st)
    (h1 : ¬ 4 * st.stash.length > 3 * st.stashLimit)
    (h2 : ¬ st.stash.length > st.stashLimit) :
    readPathQ st path = (none, st) := by
  rw [readPathQ, readPreQ_noop st h1, drainPath_noop qValid qInval path st.tree hinv]
  rw [if_neg (by simpa using h2)]
  simp

theorem pushQ_noevict (enc : Bytes → Bytes) (st : QSt) (v : Bytes)
    (hinv : allInvalidTree st) (hsz : 2 * (st.stash.length + 1) ≤ st.stashLimit) :
    pushQ enc st v
      = (none, { st with
          stash := st.stash ++ [⟨true, enc v, (drawR st.rng (2 ^ st.height)).1⟩],
          rng := (drawR st.rng (2 ^ st.height)).2 }) := by
  have hrp : readPathQ (opDrawStQ st) (opPathQ st) = (none, opDrawStQ st) :=
    readPathQ_noop _ _ hinv
      (show ¬ 4 * st.stash.length > 3 * st.stashLimit by omega)
      (show ¬ st.stash.length > st.stashLimit by omega)
  have hwp : writePathQ (opDrawStQ st) (opPathQ st) = opDrawStQ st :=
    writePathQ_noop _ _ (show ¬ 2 * st.stash.length > st.stashLimit by omega)
  have hfe : fullEvictionQ (pushedQ enc v (drawR st.rng (2 ^ st.height)).1 (opDrawStQ st))
      = pushedQ enc v (drawR st.rng (2 ^ st.height)).1 (opDrawStQ st) :=
    fullEvictionQ_noop _ (show ¬ 2 * (st.stash ++ [(⟨true, enc v,
      (drawR st.rng (2 ^ st.height)).1⟩ : QBlk)]).length > st.stashLimit by
        simp only [List.length_append, List.length_cons, List.length_nil]; omega)
  rw [pushQ]
  simp only [hrp, hwp, hfe]
  rw [if_pos trivial]
  rw [if_neg (show ¬ (pushedQ enc v (drawR st.rng (2 ^ st.height)).1 (opDrawStQ st)).stash.length
      > (pushedQ enc v (drawR st.rng (2 ^ st.height)).1 (opDrawStQ st)).stashLimit by
    show ¬ (st.stash ++ [(⟨true, enc v, (drawR st.rng (2 ^ st.height)).1⟩ : QBlk)]).length
      > st.stashLimit
    simp only [List.length_append, List.length_cons, List.length_nil]; omega)]
  rfl

theorem popQ_noevict (dec : Bytes → Bytes) (st : QSt) (b : QBlk) (rest : List QBlk)
    (hinv : allInvalidTree st) (hsz : 2 * st.stash.length ≤ st.stashLimit)
    (hstash : st.stash = b :: rest) :
    popQ dec st
      = (none, if b.valid then some (dec b.data) else none,
          { st with stash := rest, rng := (drawR st.rng (2 ^ st.height)).2 }) := by
  have hlen : st.stash.length = rest.length + 1 := by rw [hstash]; simp
  have hrp : readPathQ (opDrawStQ st) (opPathQ st) = (none, opDrawStQ st) :=
    readPathQ_noop _ _ hinv
      (show ¬ 4 * st.stash.length > 3 * st.stashLimit by omega)
      (show ¬ st.stash.length > st.stashLimit by omega)
  have hwp : writePathQ ⟨(opDrawStQ st).height, (opDrawStQ st).stashLimit, (opDrawStQ st).cap,
      (opDrawStQ st).tree, rest, (opDrawStQ st).rng⟩ (opPathQ st)
      = ⟨(opDrawStQ st).height, (opDrawStQ st).stashLimit, (opDrawStQ st).cap,
        (opDrawStQ st).tree, rest, (opDrawStQ st).rng⟩ :=
    writePathQ_noop _ _ (show ¬ 2 * rest.length > st.stashLimit by omega)
  have hfe : fullEvictionQ ⟨(opDrawStQ st).height, (opDrawStQ st).stashLimit, (opDrawStQ st).cap,
      (opDrawStQ st).tree, rest, (opDrawStQ st).rng⟩
      = ⟨(opDrawStQ st).height, (opDrawStQ st).stashLimit, (opDrawStQ st).cap,
        (opDrawStQ st).tree, rest, (opDrawStQ st).rng⟩ :=
    fullEvictionQ_noop _ (show ¬ 2 * rest.length > st.stashLimit by omega)
  rw [popQ]
  simp only [hrp]
  rw [if_pos trivial]
  have hs0 : (opDrawStQ st).stash = b :: rest := hstash
  rw [hs0]
  simp only [hwp, hfe]
  rfl

theorem pushAll_spec (enc : Bytes → Bytes) :
    ∀ (vs : List Bytes) (st : QSt), allInvalidTree st →
    2 * (st.stash.length + vs.length) ≤ st.stashLimit →
    (pushAll enc st vs).stashLimit = st.stashLimit
    ∧ (pushAll enc st vs).height = st.height
    ∧ (pushAll enc st vs).tree = st.tree
    ∧ (pushAll enc st vs).stash.map (fun b => (b.valid, b.data))
        = st.stash.map (fun b => (b.valid, b.data)) ++ vs.map (fun v => (true, enc v)) := by
  intro vs
  induction vs with
  | nil => intro st _ _; simp [pushAll]
  | cons v rest ih =>
      intro st hinv hsz
      have hstep := pushQ_noevict enc st v hinv (by simp at hsz; omega)
      rw [pushAll, hstep]
      have hinv' : allInvalidTree { st with
          stash := st.stash ++ [(⟨true, enc v, (drawR st.rng (2 ^ st.height)).1⟩ : QBlk)],
          rng := (drawR st.rng (2 ^ st.height)).2 } := hinv
      have hsz' : 2 * ((st.stash ++ [(⟨true, enc v, (drawR st.rng (2 ^ st.height)).1⟩ : QBlk)]).length
          + rest.length) ≤ st.stashLimit := by
        simp only [List.length_append, List.length_cons, List.length_nil]
        simp at hsz
        omega
      obtain ⟨hL, hh, ht, hs⟩ := ih _ hinv' hsz'
      refine ⟨hL, hh, ht, ?_⟩
      rw [hs]
      simp

theorem popList_spec (dec : Bytes → Bytes) :
    ∀ (bs : List QBlk) (st : QSt), allInvalidTree st →
    2 * st.stash.length ≤ st.stashLimit → st.stash = bs →
    popList dec st bs.length
      = bs.map (fun b => if b.valid then some (dec b.data) else none) := by
  intro bs
  induction bs with
  | nil => intro st _ _ _; rfl
  | cons b rest ih =>
      intro st hinv hsz hstash
      have hstep := popQ_noevict dec st b rest hinv hsz hstash
      have hinv' : allInvalidTree ⟨st.height, st.stashLimit, st.cap, st.tree, rest,
          (drawR st.rng (2 ^ st.height)).2⟩ := hinv
      have hsz' : 2 * rest.length ≤ st.stashLimit := by
        have : rest.length + 1 = st.stash.length := by rw [hstash]; simp
        omega
      show popList dec st (rest.length + 1) = _
      rw [popList]
      simp only [hstep, List.map_cons]
      rw [ih _ hinv' hsz' rfl]

theorem initQ_allInvalid (h L cap : Nat) (rng : List Nat) :
    allInvalidTree (initQ h L cap rng) := by
  intro i b hb
  simp only [initQ] at hb
  by_cases hi : i < numBucketsQ h + 1
  · have : (List.replicate (numBucketsQ h + 1)
        (List.replicate cap (⟨false, [], 0⟩ : QBlk))).getD i []
        = List.replicate cap (⟨false, [], 0⟩ : QBlk) := by
      rw [List.getD_eq_getElem?_getD]
      rw [List.getElem?_replicate]
      simp [hi]
    rw [this] at hb
    have := List.eq_of_mem_replicate hb
    rw [this]
    rfl
  · rw [getD_beyond _ _ (by simp; omega)] at hb
    simp at hb

theorem fifo_glue (enc dec : Bytes → Bytes) :
    ∀ (bs : List QBlk) (vs : List Bytes),
    bs.map (fun b => (b.valid, b.data)) = vs.map (fun v => (true, enc v)) →
    (∀ v ∈ vs, dec (enc v) = v) →
    bs.map (fun b => if b.valid then some (dec b.data) else none) = vs.map some := by
  intro bs
  induction bs with
  | nil =>
      intro vs h _
      cases vs with
      | nil => rfl
      | cons v vr => simp at h
  | cons b br ih =>
      intro vs h hdec
      cases vs with
      | nil => simp at h
      | cons v vr =>
          simp only [List.map_cons, List.cons.injEq, Prod.mk.injEq] at h
          obtain ⟨⟨hv, hd⟩, hrest⟩ := h
          have h1 := hdec v (List.mem_cons_self v vr)
          have h2 := ih vr hrest (fun x hx => hdec x (List.mem_cons_of_mem _ hx))
          simp [hv, hd, h1, h2]

theorem drainPath_inv {α : Type} (isV : α → Bool) (inval : α → α)
    (hinv : ∀ b, isV (inval b) = false) (P : Nat → α → Prop)
    (idxs : List Nat) (tree : List (List α))
    (ht : ∀ i, ∀ b ∈ tree.getD i [], isV b = true → P i b) :
    ∀ i, ∀ b ∈ (drainPath isV inval idxs tree).1.getD i [], isV b = true → P i b := by
  induction idxs generalizing tree with
  | nil => simpa [drainPath] using ht
  | cons i rest ih =>
      simp only [drainPath]
      apply ih
      intro j b hb hbv
      rw [getD_set] at hb
      by_cases hj : j = i ∧ i < tree.length
      · rw [if_pos hj] at hb
        have hnb := drainBucket_novalid isV inval hinv (tree.getD i []) b hb
        rw [hbv] at hnb
        cases hnb
      · rw [if_neg hj] at hb
        exact ht j b hb hbv

theorem fullEvictPassQ_inv (st : QSt) (hp : qPathInv st) : qPathInv (fullEvictPassQ st).1 :=
  passOver_inv qValid id (eligQ st.height)
    (fun i b => i ∈ getPathIndices st.height b.leaf)
    (fun i b hb => of_decide_eq_true hb)
    (List.range' 1 (numBucketsQ st.height)) st.tree st.stash hp

theorem remapAllQ_inv (st : QSt) (hp : qPathInv st) : qPathInv (remapAllQ st) := hp

theorem fullEvictLoopQ_inv :
    ∀ (fuel : Nat) (st : QSt), qPathInv st → qPathInv (fullEvictLoopQ fuel st) := by
  intro fuel
  induction fuel with
  | zero => intro st hp; exact hp
  | succ f ih =>
      intro st hp
      rw [fullEvictLoopQ]
      by_cases h1 : 2 * st.stash.length > st.stashLimit
      · rw [if_pos h1]
        by_cases h2 : (fullEvictPassQ st).2 = 0
            ∨ (fullEvictPassQ st).1.stash.length ≥ st.stash.length
        · rw [if_pos h2]
          by_cases h3 : (remapAllQ (fullEvictPassQ st).1).stash.length ≥ st.stash.length
          · rw [if_pos h3]
            exact remapAllQ_inv _ (fullEvictPassQ_inv st hp)
          · rw [if_neg h3]
            exact ih _ (remapAllQ_inv _ (fullEvictPassQ_inv st hp))
        · rw [if_neg h2]
          exact ih _ (fullEvictPassQ_inv st hp)
      · rw [if_neg h1]
        exact hp

theorem fullEvictionQ_inv (st : QSt) (hp : qPathInv st) : qPathInv (fullEvictionQ st) :=
  fullEvictLoopQ_inv _ st hp

theorem writePassQ_inv (st : QSt) (path : List Nat) (hp : qPathInv st) :
    qPathInv (writePassQ st path).1 :=
  passOver_inv qValid id (eligQ st.height)
    (fun i b => i ∈ getPathIndices st.height b.leaf)
    (fun i b hb => of_decide_eq_true hb) path st.tree st.stash hp

theorem writeLoopQ_inv (path : List Nat) :
    ∀ (fuel : Nat) (st : QSt), qPathInv st → qPathInv (writeLoopQ path fuel st) := by
  intro fuel
  induction fuel with
  | zero => intro st hp; exact hp
  | succ f ih =>
      intro st hp
      rw [writeLoopQ]
      by_cases h1 : 2 * st.stash.length > st.stashLimit
      · rw [if_pos h1]
        by_cases h2 : (writePassQ st path).2 = 0
        · rw [if_pos h2]
          by_cases h3 : (fullEvictionQ (writePassQ st path).1).stash.length ≥ st.stash.length
          · rw [if_pos h3]
            exact fullEvictionQ_inv _ (writePassQ_inv st path hp)
          · rw [if_neg h3]
            exact ih _ (fullEvictionQ_inv _ (writePassQ_inv st path hp))
        · rw [if_neg h2]
          by_cases h3 : (writePassQ st path).1.stash.length ≥ st.stash.length
          · rw [if_pos h3]
            exact writePassQ_inv st path hp
          · rw [if_neg h3]
            exact ih _ (writePassQ_inv st path hp)
      · rw [if_neg h1]
        exact hp

theorem writePathQ_inv (st : QSt) (path : List Nat) (hp : qPathInv st) :
    qPathInv (writePathQ st path) :=
  writeLoopQ_inv path _ st hp

theorem readPreQ_inv (st : QSt) (hp : qPathInv st) : qPathInv (readPreQ st) := by
  rw [readPreQ]
  by_cases h : 4 * st.stash.length > 3 * st.stashLimit
  · rw [if_pos h]; exact fullEvictionQ_inv st hp
  · rw [if_neg h]; exact hp

theorem readPathQ_inv (st : QSt) (path : List Nat) (hp : qPathInv st) :
    qPathInv (readPathQ st path).2 := by
  rw [readPathQ]
  have hdp : ∀ i : Nat, ∀ b ∈ (drainPath qValid qInval path (readPreQ st).tree).1.getD i [],
      qValid b = true → i ∈ getPathIndices (readPreQ st).height b.leaf :=
    drainPath_inv qValid qInval (fun _ => rfl) _ path (readPreQ st).tree
      (readPreQ_inv st hp)
  by_cases h : ((readPreQ st).stash
      ++ (drainPath qValid qInval path (readPreQ st).tree).2).length > (readPreQ st).stashLimit
  · rw [if_pos h]; exact hdp
  · rw [if_neg h]; exact hdp

theorem pushedQ_inv (enc : Bytes → Bytes) (v : Bytes) (leaf : Nat) (st : QSt)
    (hp : qPathInv st) : qPathInv (pushedQ enc v leaf st) := hp

theorem setStashQ_inv (st : QSt) (s : List QBlk) (hp : qPathInv st) :
    qPathInv { st with stash := s } := hp

theorem pushQ_inv (enc : Bytes → Bytes) (st : QSt) (v : Bytes) (hp : qPathInv st) :
    qPathInv (pushQ enc st v).2 := by
  rw [pushQ]
  set R := readPathQ (opDrawStQ st) (opPathQ st) with hR
  set F := fullEvictionQ (pushedQ enc v (drawR st.rng (2 ^ st.height)).1
    (writePathQ R.2 (opPathQ st))) with hF
  have hrd : qPathInv R.2 := readPathQ_inv (opDrawStQ st) (opPathQ st) hp
  have hroot : qPathInv F :=
    fullEvictionQ_inv _ (pushedQ_inv enc v (drawR st.rng (2 ^ st.height)).1 _
      (writePathQ_inv R.2 (opPathQ st) hrd))
  clear_value R F
  clear hR hF
  by_cases h1 : R.1 = none
  · rw [if_pos h1]
    by_cases h2 : F.stash.length > F.stashLimit
    · rw [if_pos h2]
      exact hroot
    · rw [if_neg h2]
      exact hroot
  · rw [if_neg h1]
    exact hrd

theorem popQ_inv (dec : Bytes → Bytes) (st : QSt) (hp : qPathInv st) :
    qPathInv (popQ dec st).2.2 := by
  rw [popQ]
  set R := readPathQ (opDrawStQ st) (opPathQ st) with hR
  have hrd : qPathInv R.2 := readPathQ_inv (opDrawStQ st) (opPathQ st) hp
  clear_value R
  clear hR
  by_cases h1 : R.1 = none
  · rw [if_pos h1]
    cases hs : R.2.stash with
    | nil =>
        exact fullEvictionQ_inv _ (writePathQ_inv R.2 (opPathQ st) hrd)
    | cons b rest =>
        exact fullEvictionQ_inv _ (writePathQ_inv _ (opPathQ st)
          (setStashQ_inv R.2 rest hrd))
  · rw [if_neg h1]
    exact hrd

theorem initQ_inv (h L cap : Nat) (rng : List Nat) : qPathInv (initQ h L cap rng) := by
  intro i b hb hbv
  have h2 : b.valid = false := initQ_allInvalid h L cap rng i b hb
  rw [hbv] at h2
  cases h2

/-- Claim C5, amended.  The path-membership invariant holds for the
queue variant: in every state reachable from a fresh queue by any
sequence of pushes and pops, every valid block residing in a tree
bucket lies on the path from the root to the block's `leaf` field,
because the queue's `write_path` and `full_eviction` place a stash
block only into buckets on that block's own path.  (It fails for the
second map variant, whose `write_path` fills empty slots with
`stash.back()` without any ancestry check — see the counterexample.) -/
theorem queue_path_invariant_c5 (enc dec : Bytes → Bytes) (h L cap : Nat) (rng : List Nat)
    (ops : List QOp) : qPathInv (execQ enc dec (initQ h L cap rng) ops) := by
  have hmain : ∀ (ops : List QOp) (st : QSt), qPathInv st →
      qPathInv (execQ enc dec st ops) := by
    intro ops
    induction ops with
    | nil => intro st hp; exact hp
    | cons op rest ih =>
        intro st hp
        cases op with
        | push v => exact ih _ (pushQ_inv enc st v hp)
        | pop => exact ih _ (popQ_inv dec st hp)
  exact hmain ops _ (initQ_inv h L cap rng)

theorem remapStashQ_vms (h : Nat) (l : List QBlk) (rng : List Nat) :
    vms qValid (fun b => b.data) (remapStashQ h l rng).1
      = vms qValid (fun b => b.data) l := by
  induction l generalizing rng with
  | nil => rfl
  | cons b bs ih =>
      rw [remapStashQ]
      rw [vms_cons, vms_cons]
      have hq : qValid ⟨b.valid, b.data, (drawR rng (2 ^ h)).1⟩ = qValid b := rfl
      have hd : (⟨b.valid, b.data, (drawR rng (2 ^ h)).1⟩ : QBlk).data = b.data := rfl
      rw [hq, hd, ih]

theorem remapAllQ_qData (st : QSt) : qData (remapAllQ st) = qData st := by
  simp only [qData, remapAllQ]
  rw [remapStashQ_vms]

theorem fullEvictPassQ_qData (st : QSt) : qData (fullEvictPassQ st).1 = qData st := by
  simp only [qData, fullEvictPassQ]
  exact passOver_conserve qValid id (eligQ st.height) (fun b => b.data)
    (fun _ => rfl) (fun _ => rfl) (List.range' 1 (numBucketsQ st.height)) st.tree st.stash

theorem fullEvictLoopQ_qData :
    ∀ (fuel : Nat) (st : QSt), qData (fullEvictLoopQ fuel st) = qData st := by
  intro fuel
  induction fuel with
  | zero => intro st; rfl
  | succ f ih =>
      intro st
      rw [fullEvictLoopQ]
      by_cases h1 : 2 * st.stash.length > st.stashLimit
      · rw [if_pos h1]
        by_cases h2 : (fullEvictPassQ st).2 = 0
            ∨ (fullEvictPassQ st).1.stash.length ≥ st.stash.length
        · rw [if_pos h2]
          by_cases h3 : (remapAllQ (fullEvictPassQ st).1).stash.length ≥ st.stash.length
          · rw [if_pos h3]
            rw [remapAllQ_qData, fullEvictPassQ_qData]
          · rw [if_neg h3]
            rw [ih, remapAllQ_qData, fullEvictPassQ_qData]
        · rw [if_neg h2]
          rw [ih, fullEvictPassQ_qData]
      · rw [if_neg h1]

theorem fullEvictionQ_qData (st : QSt) : qData (fullEvictionQ st) = qData st :=
  fullEvictLoopQ_qData _ st

theorem writePassQ_qData (st : QSt) (path : List Nat) :
    qData (writePassQ st path).1 = qData st := by
  simp only [qData, writePassQ]
  exact passOver_conserve qValid id (eligQ st.height) (fun b => b.data)
    (fun _ => rfl) (fun _ => rfl) path st.tree st.stash

theorem writeLoopQ_qData (path : List Nat) :
    ∀ (fuel : Nat) (st : QSt), qData (writeLoopQ path fuel st) = qData st := by
  intro fuel
  induction fuel with
  | zero => intro st; rfl
  | succ f ih =>
      intro st
      rw [writeLoopQ]
      by_cases h1 : 2 * st.stash.length > st.stashLimit
      · rw [if_pos h1]
        by_cases h2 : (writePassQ st path).2 = 0
        · rw [if_pos h2]
          by_cases h3 : (fullEvictionQ (writePassQ st path).1).stash.length ≥ st.stash.length
          · rw [if_pos h3]
            rw [fullEvictionQ_qData, writePassQ_qData]
          · rw [if_neg h3]
            rw [ih, fullEvictionQ_qData, writePassQ_qData]
        · rw [if_neg h2]
          by_cases h3 : (writePassQ st path).1.stash.length ≥ st.stash.length
          · rw [if_pos h3]
            rw [writePassQ_qData]
          · rw [if_neg h3]
            rw [ih, writePassQ_qData]
      · rw [if_neg h1]

theorem writePathQ_qData (st : QSt) (path : List Nat) :
    qData (writePathQ st path) = qData st :=
  writeLoopQ_qData path _ st

/-- Counterexample to claim C9 as stated: the queue's `full_eviction`
remaps stuck stash blocks to fresh random leaves, so the multiset of
valid blocks (with their `leaf` fields) is not preserved: a stash block
assigned leaf 0, stuck because the root is full, is reassigned leaf 1. -/
theorem conservation_c9_counterexample :
    qBlocksFull (fullEvictionQ ⟨1, 1, 1,
        [[], [⟨true, [9], 0⟩], [⟨false, [], 0⟩], [⟨false, [], 0⟩]], [⟨true, [7], 0⟩], [1]⟩)
      ≠ qBlocksFull ⟨1, 1, 1,
        [[], [⟨true, [9], 0⟩], [⟨false, [], 0⟩], [⟨false, [], 0⟩]], [⟨true, [7], 0⟩], [1]⟩ := by
  decide

/-- Claim C9, amended.  The simple variants' eviction routines neither
create nor destroy real blocks: the first map variant's `write_path`
preserves the multiset of valid blocks exactly; the queue's
`write_path` and `full_eviction` preserve the multiset of valid block
payloads (remap-on-stall may reassign `leaf` fields, which is the only
change the counterexample exhibits). -/
theorem conservation_c9 :
    (∀ (st : ASt) (path : List Nat), aBlocks (writePathA st path) = aBlocks st)
    ∧ (∀ (st : QSt) (path : List Nat), qData (writePathQ st path) = qData st)
    ∧ (∀ st : QSt, qData (fullEvictionQ st) = qData st) :=
  ⟨writePathA_conserve, writePathQ_qData, fullEvictionQ_qData⟩

/-- Counterexample to claim C3 as stated: queue of height 1, capacity 1,
stash limit 4; pushes of `[1]`, `[2]`, `[3]` all drawn to leaf 0 make
the eviction park the first block in the tree; the first pop (drawn to
leaf 1) then returns the stash front `[2]`, not the first-pushed `[1]`
— strict FIFO fails. -/
theorem queue_fifo_c3_counterexample :
    (popQ id (execQ id id (initQ 1 4 1 [0, 0, 0, 1])
        [QOp.push [1], QOp.push [2], QOp.push [3]])).2.1 = some [2]
    ∧ (popQ id (execQ id id (initQ 1 4 1 [0, 0, 0, 1])
        [QOp.push [1], QOp.push [2], QOp.push [3]])).2.1 ≠ some [1]
    ∧ (popQ id (execQ id id (initQ 1 4 1 [0, 0, 0, 1])
        [QOp.push [1], QOp.push [2], QOp.push [3]])).1 = none := by
  decide

/-- Claim C3, amended.  Strict FIFO holds on a fresh queue provided the
run never triggers eviction: when twice the number of pushed values
stays within the stash limit, no block is moved into the tree, the
stash keeps insertion order, and `n` pushes followed by `n` pops return
`v1..vn` in order.  (In general, eviction followed by a path read
reorders the stash and pops return values out of order, as the
counterexample shows.) -/
theorem queue_fifo_c3 (enc dec : Bytes → Bytes) (h L cap : Nat) (rng : List Nat)
    (vs : List Bytes) (hlen : 2 * vs.length ≤ L) (hdec : ∀ v ∈ vs, dec (enc v) = v) :
    popList dec (pushAll enc (initQ h L cap rng) vs) vs.length = vs.map some := by
  obtain ⟨hL, _, ht, hs⟩ := pushAll_spec enc vs (initQ h L cap rng)
    (initQ_allInvalid h L cap rng) (by simp [initQ]; omega)
  have hinv' : allInvalidTree (pushAll enc (initQ h L cap rng) vs) := by
    intro i b hb
    rw [ht] at hb
    exact initQ_allInvalid h L cap rng i b hb
  have hlen' : (pushAll enc (initQ h L cap rng) vs).stash.length = vs.length := by
    have := congrArg List.length hs
    simpa [initQ] using this
  have hsz' : 2 * (pushAll enc (initQ h L cap rng) vs).stash.length
      ≤ (pushAll enc (initQ h L cap rng) vs).stashLimit := by
    rw [hlen', hL]
    simpa [initQ] using hlen
  have hpop := popList_spec dec (pushAll enc (initQ h L cap rng) vs).stash
    (pushAll enc (initQ h L cap rng) vs) hinv' hsz' rfl
  rw [← hlen'] at *
  rw [hpop]
  exact fifo_glue enc dec _ vs (by simpa [initQ] using hs) hdec

/-- Witness for the amended C3: three pushes and three pops on a fresh
queue with stash limit 10 return the values in order. -/
theorem queue_fifo_c3_witness :
    popList id (pushAll id (initQ 1 10 1 [0, 1, 0, 1, 0, 1]) [[1], [2], [3]]) 3
      = [some [1], some [2], some [3]] := by
  have := queue_fifo_c3 id id 1 10 1 [0, 1, 0, 1, 0, 1] [[1], [2], [3]]
    (by decide) (fun v _ => rfl)
  simpa using this

/-! ### Hardened map (`src/unnamed/part_000`)

The hardened `ObliviousMap` extends blocks with an eviction-attempt
counter (`eviction_attempt_count`, here `cnt`) and a priority flag
(`high_priority`, here `hp`); the state gains the
`dropNonEssentialBlocks` flag (`dropFlag`) and a stash limit that the
code grows dynamically (`stashLimit * 1.2`, exactly `6*L/5` on the
integers involved).  Keys are modelled as numbers, since none of the
routines below inspects the key text (only `oblivious_insert`
classifies keys, and it is not needed for claim C8).  `std::sort` with
a comparator `lt` is modelled by insertion sort — any permutation
sorted for the comparator's weak order is a correct refinement of the
unspecified `std::sort` result, and the multiset statements below are
independent of the choice.  The unused `evictionFailCount` member is
omitted. -/

structure HBlk where
  valid : Bool
  key : Nat
  value : Bytes
  leaf : Nat
  cnt : Nat
  hp : Bool
deriving DecidableEq

def hValid (b : HBlk) : Bool := b.valid

def hInval (b : HBlk) : HBlk := { b with valid := false }

/-- State of the hardened map. -/
structure HSt where
  height : Nat
  stashLimit : Nat
  cap : Nat
  tree : List (List HBlk)
  stash : List HBlk
  posMap : List (Nat × Nat)
  dropFlag : Bool
  rng : List Nat
deriving DecidableEq

def numBucketsH (st : HSt) : Nat := 2 ^ (st.height + 1) - 1

/-- Insertion of an element into a list sorted by the strict comparator
`lt` (`insAux lt b l` places `b` before the first element it compares
below). -/
def insAux {α : Type} (lt : α → α → Bool) (b : α) : List α → List α
  | [] => [b]
  | c :: cs => if lt b c then b :: c :: cs else c :: insAux lt b cs

/-- Insertion sort, the model of `std::sort(stash.begin(), stash.end(), lt)`. -/
def insSort {α : Type} (lt : α → α → Bool) : List α → List α
  | [] => []
  | b :: bs => insAux lt b (insSort lt bs)

/-- Comparator of the sort in `emergency_drop_blocks`: non-priority
blocks first, then larger eviction-attempt counts first. -/
def edCmp (a b : HBlk) : Bool :=
  if a.hp = b.hp then decide (b.cnt < a.cnt) else b.hp

/-- Comparator of the sort in the hardened `write_path`: priority
blocks first, then fewer attempts, then shorter path to the root. -/
def wpCmp (h : Nat) (a b : HBlk) : Bool :=
  if a.hp = b.hp then
    if a.cnt = b.cnt then
      decide ((getPathIndices h a.leaf).length < (getPathIndices h b.leaf).length)
    else decide (a.cnt < b.cnt)
  else a.hp

/-- Comparator of the sort in the hardened `full_eviction`: priority
blocks first, then fewer attempts. -/
def feCmp (a b : HBlk) : Bool :=
  if a.hp = b.hp then decide (a.cnt < b.cnt) else a.hp

/-- The erase loop of `emergency_drop_blocks` on the sorted stash:
walk the stash, erase non-priority blocks until the budget is spent,
and give each erased valid block's key a fresh leaf in the position
map.  Returns the surviving stash, the position map, the remaining
randomness and the number of blocks dropped. -/
def dropLoop (h : Nat) : Nat → List HBlk → List (Nat × Nat) → List Nat →
    List HBlk × List (Nat × Nat) × List Nat × Nat
  | _, [], pm, rng => ([], pm, rng, 0)
  | 0, s, pm, rng => (s, pm, rng, 0)
  | budget + 1, b :: bs, pm, rng =>
      if b.hp then
        let r := dropLoop h (budget + 1) bs pm rng
        (b :: r.1, r.2.1, r.2.2.1, r.2.2.2)
      else if b.valid then
        let r := dropLoop h budget bs (pmSet pm b.key (drawR rng (2 ^ h)).1)
          (drawR rng (2 ^ h)).2
        (r.1, r.2.1, r.2.2.1, r.2.2.2 + 1)
      else
        let r := dropLoop h budget bs pm rng
        (r.1, r.2.1, r.2.2.1, r.2.2.2 + 1)

/-- `emergency_drop_blocks`: sort the stash with non-priority blocks in
front, count the droppable (non-priority) blocks, and erase
`max(1, droppable/5)` of them, remapping each dropped valid block's key
to a fresh leaf.  Returns `dropped > 0` and the new state. -/
def emergencyDropBlocks (st : HSt) : Bool × HSt :=
  if ((insSort edCmp st.stash).filter (fun b => !b.hp)).length = 0 then
    (false, { st with stash := insSort edCmp st.stash })
  else
    (decide (0 < (dropLoop st.height
        (max 1 (((insSort edCmp st.stash).filter (fun b => !b.hp)).length / 5))
        (insSort edCmp st.stash) st.posMap st.rng).2.2.2),
     { st with
        stash := (dropLoop st.height
          (max 1 (((insSort edCmp st.stash).filter (fun b => !b.hp)).length / 5))
          (insSort edCmp st.stash) st.posMap st.rng).1,
        posMap := (dropLoop st.height
          (max 1 (((insSort edCmp st.stash).filter (fun b => !b.hp)).length / 5))
          (insSort edCmp st.stash) st.posMap st.rng).2.1,
        rng := (dropLoop st.height
          (max 1 (((insSort edCmp st.stash).filter (fun b => !b.hp)).length / 5))
          (insSort edCmp st.stash) st.posMap st.rng).2.2.1 })

/-- `remap_stuck_blocks`: every stash block attempted more than twice
gets a fresh leaf and a reset counter, drawing in stash order. -/
def remapStuckAux (h : Nat) : List HBlk → List Nat → List HBlk × List Nat
  | [], rng => ([], rng)
  | b :: bs, rng =>
      if 2 < b.cnt then
        ({ b with leaf := (drawR rng (2 ^ h)).1, cnt := 0 }
            :: (remapStuckAux h bs (drawR rng (2 ^ h)).2).1,
          (remapStuckAux h bs (drawR rng (2 ^ h)).2).2)
      else
        (b :: (remapStuckAux h bs rng).1, (remapStuckAux h bs rng).2)

def remapStuckH (st : HSt) : HSt :=
  { st with stash := (remapStuckAux st.height st.stash st.rng).1,
            rng := (remapStuckAux st.height st.stash st.rng).2 }

/-- Remap of every stash block (`critical_eviction` and the no-progress
branch of the hardened `full_eviction`): fresh leaf, counter reset. -/
def remapAllAux (h : Nat) : List HBlk → List Nat → List HBlk × List Nat
  | [], rng => ([], rng)
  | b :: bs, rng =>
      ({ b with leaf := (drawR rng (2 ^ h)).1, cnt := 0 }
          :: (remapAllAux h bs (drawR rng (2 ^ h)).2).1,
        (remapAllAux h bs (drawR rng (2 ^ h)).2).2)

def remapAllH (st : HSt) : HSt :=
  { st with stash := (remapAllAux st.height st.stash st.rng).1,
            rng := (remapAllAux st.height st.stash st.rng).2 }

/-- Path-membership eligibility of a stash block for a bucket, as in
every hardened eviction pass. -/
def eligH (h idx : Nat) (b : HBlk) : Bool := decide (idx ∈ getPathIndices h b.leaf)

/-- Slot placement of the hardened passes: `slot = *it;
slot.eviction_attempt_count = 0`. -/
def placeH (b : HBlk) : HBlk := { b with cnt := 0 }

/-- The round loop of the hardened `full_eviction(emergency)`:
`round` counts from 0 up to `maxRounds` (8 in emergency mode, 5
otherwise, carried as the `remaining` fuel); each round sorts the
stash, sweeps every bucket (the code's extra `!stash.empty()` test is
redundant: an empty stash yields no eligible block), and on no
progress remaps the whole stash, additionally emergency-dropping when
in emergency mode past round 3 with the stash above `0.8 *
stashLimit`. -/
def fullEvictLoopH (em : Bool) : Nat → Nat → HSt → HSt
  | 0, _, st => st
  | remaining + 1, round, st =>
      if (if em then 10 * st.stash.length > 3 * st.stashLimit
          else 2 * st.stash.length > st.stashLimit) then
        let prev := st.stash.length
        let p := passOver hValid placeH (eligH st.height)
          (List.range' 1 (numBucketsH st)) st.tree (insSort feCmp st.stash)
        let st1 := { st with tree := p.1, stash := p.2.1 }
        if p.2.2 = 0 ∨ prev ≤ st1.stash.length then
          let st2 := remapAllH st1
          let st3 :=
            if em ∧ 3 < round ∧ prev ≤ st2.stash.length then
              if 5 * st2.stash.length > 4 * st2.stashLimit then
                (emergencyDropBlocks { st2 with dropFlag := true }).2
              else st2
            else st2
          fullEvictLoopH em remaining (round + 1) st3
        else fullEvictLoopH em remaining (round + 1) st1
      else st

def fullEvictionH (em : Bool) (st : HSt) : HSt :=
  fullEvictLoopH em (if em then 8 else 5) 0 st

/-- `critical_eviction`: remap the whole stash, run an emergency full
eviction, and if the stash is still above `0.8 * stashLimit` enable
dropping and emergency-drop once. -/
def criticalEvictionH (st : HSt) : HSt :=
  if 5 * (fullEvictionH true (remapAllH st)).stash.length
      > 4 * (fullEvictionH true (remapAllH st)).stashLimit then
    (emergencyDropBlocks
      { fullEvictionH true (remapAllH st) with dropFlag := true }).2
  else fullEvictionH true (remapAllH st)

/-- The aggressive clearing loop of the hardened `read_path`: while the
stash plus the path's incoming blocks exceeds `0.7 * stashLimit`,
emergency-drop; when a drop frees nothing, grow the stash limit by 20%
and stop.  Fuel `stash.length + 1` suffices: every continuing
iteration has dropped at least one block. -/
def dropGrowLoop (pot : Nat) : Nat → HSt → HSt
  | 0, st => st
  | fuel + 1, st =>
      if 10 * (st.stash.length + pot) > 7 * st.stashLimit then
        if (emergencyDropBlocks st).1 then
          dropGrowLoop pot fuel (emergencyDropBlocks st).2
        else { (emergencyDropBlocks st).2 with
                stashLimit := 6 * (emergencyDropBlocks st).2.stashLimit / 5 }
      else st

/-- The final rescue loop of the hardened `read_path` (condition
`stash.size() > stashLimit * 0.9`). -/
def dropGrow9Loop : Nat → HSt → HSt
  | 0, st => st
  | fuel + 1, st =>
      if 10 * st.stash.length > 9 * st.stashLimit then
        if (emergencyDropBlocks st).1 then
          dropGrow9Loop fuel (emergencyDropBlocks st).2
        else { (emergencyDropBlocks st).2 with
                stashLimit := 6 * (emergencyDropBlocks st).2.stashLimit / 5 }
      else st

/-- Number of valid blocks currently on the path
(`potential_new_blocks`). -/
def potH (tree : List (List HBlk)) (path : List Nat) : Nat :=
  (path.map (fun i => ((tree.getD i []).filter hValid).length)).sum

/-- First step of the hardened `read_path`: critical eviction when the
stash is at or past half the limit (`stash.size() >= stashLimit * 0.5`). -/
def readPathH1 (st : HSt) : HSt :=
  if 2 * st.stash.length ≥ st.stashLimit then criticalEvictionH st else st

/-- Second step: when reading the path would push the stash past 90% of
the limit, raise `dropNonEssentialBlocks` and clear space down to 70%
(or grow the limit when dropping fails). -/
def readPathH2 (st : HSt) (path : List Nat) : HSt :=
  if 10 * (st.stash.length + potH st.tree path) > 9 * st.stashLimit then
    dropGrowLoop (potH st.tree path) (st.stash.length + 1) { st with dropFlag := true }
  else st

/-- Third step: the drain of the path into the stash. -/
def readPathH3 (st : HSt) (path : List Nat) : HSt :=
  { st with tree := (drainPath hValid hInval path st.tree).1,
            stash := st.stash ++ (drainPath hValid hInval path st.tree).2 }

/-- Fourth step: when the drain overflowed the limit, drop or grow
until the stash is at 90% of the limit or dropping fails. -/
def readPathHCore (st : HSt) (path : List Nat) : HSt :=
  if (readPathH3 (readPathH2 (readPathH1 st) path) path).stash.length
      > (readPathH3 (readPathH2 (readPathH1 st) path) path).stashLimit then
    dropGrow9Loop ((readPathH3 (readPathH2 (readPathH1 st) path) path).stash.length + 1)
      (readPathH3 (readPathH2 (readPathH1 st) path) path)
  else readPathH3 (readPathH2 (readPathH1 st) path) path

/-- The hardened `read_path`: the four steps above, then the throw when
the stash still exceeds the limit. -/
def readPathH (st : HSt) (path : List Nat) : Option StashErr × HSt :=
  if (readPathHCore st path).stash.length > (readPathHCore st path).stashLimit then
    (some StashErr.overflow, readPathHCore st path)
  else (none, readPathHCore st path)

/-- Counter bump of the hardened `write_path` (every stash block's
attempt counter is incremented each round, after the sort). -/
def bumpCnt (s : List HBlk) : List HBlk := s.map (fun b => { b with cnt := b.cnt + 1 })

/-- The attempt loop of the hardened `write_path`: up to 5 rounds while
the stash exceeds `0.3 * stashLimit`; each round sorts, bumps the
counters, sweeps the path, remaps stuck blocks when nothing was
evicted, and past the first attempt either emergency-drops (when the
drop flag is up) or breaks on no progress. -/
def writeLoopH : Nat → Nat → HSt → List Nat → HSt
  | 0, _, st, _ => st
  | remaining + 1, attempt, st, path =>
      if 10 * st.stash.length > 3 * st.stashLimit then
        let prev := st.stash.length
        let p := passOver hValid placeH (eligH st.height) path st.tree
          (bumpCnt (insSort (wpCmp st.height) st.stash))
        let st1 := { st with tree := p.1, stash := p.2.1 }
        let st2 := if p.2.2 = 0 then remapStuckH st1 else st1
        if prev ≤ st2.stash.length ∧ 1 < attempt then
          if st2.dropFlag then
            writeLoopH remaining (attempt + 1) (emergencyDropBlocks st2).2 path
          else st2
        else writeLoopH remaining (attempt + 1) st2 path
      else st

/-- The hardened `write_path`: the attempt loop, then a critical
eviction when the stash is still above `0.7 * stashLimit`. -/
def writePathH (st : HSt) (path : List Nat) : HSt :=
  if 10 * (writeLoopH 5 0 st path).stash.length
      > 7 * (writeLoopH 5 0 st path).stashLimit then
    criticalEvictionH (writeLoopH 5 0 st path)
  else writeLoopH 5 0 st path

/-- The stash scan of the hardened `oblivious_lookup`: the first valid
block with the key is decrypted, remapped to a fresh leaf (also
recorded in the position map) and has its counter reset; the scan stops
there. -/
def lookScan (h k : Nat) (dec : Bytes → Bytes) :
    List HBlk → List (Nat × Nat) → List Nat →
      Option Bytes × List HBlk × List (Nat × Nat) × List Nat
  | [], pm, rng => (none, [], pm, rng)
  | b :: bs, pm, rng =>
      if b.valid && b.key == k then
        (some (dec b.value),
         { b with leaf := (drawR rng (2 ^ h)).1, cnt := 0 } :: bs,
         pmSet pm k (drawR rng (2 ^ h)).1,
         (drawR rng (2 ^ h)).2)
      else
        (  (lookScan h k dec bs pm rng).1,
          b :: (lookScan h k dec bs pm rng).2.1,
          (lookScan h k dec bs pm rng).2.2.1,
          (lookScan h k dec bs pm rng).2.2.2)

/-- Pre/post stash check of the hardened public operations
(`stash.size() > stashLimit * 0.6` triggers a plain full eviction). -/
def preCheckH (st : HSt) : HSt :=
  if 5 * st.stash.length > 3 * st.stashLimit then fullEvictionH false st else st

/-- The hardened `oblivious_lookup`: pre-check, early `false` when the
key is absent from the position map, read of the key's path, stash
scan, write-back and post-check.  Returns the error (the read's
overflow throw), the `found` flag, the value and the final state. -/
def lookupH (dec : Bytes → Bytes) (st : HSt) (k : Nat) :
    Option StashErr × Bool × Option Bytes × HSt :=
  match pmGet (preCheckH st).posMap k with
  | none => (none, false, none, preCheckH st)
  | some leaf =>
      match readPathH (preCheckH st) (getPathIndices (preCheckH st).height leaf) with
      | (some e, st2) => (some e, false, none, st2)
      | (none, st2) =>
          (none,
           (lookScan st2.height k dec st2.stash st2.posMap st2.rng).1.isSome,
           (lookScan st2.height k dec st2.stash st2.posMap st2.rng).1,
           preCheckH (writePathH
             { st2 with
                stash := (lookScan st2.height k dec st2.stash st2.posMap st2.rng).2.1,
                posMap := (lookScan st2.height k dec st2.stash st2.posMap st2.rng).2.2.1,
                rng := (lookScan st2.height k dec st2.stash st2.posMap st2.rng).2.2.2 }
             (getPathIndices (preCheckH st).height leaf)))

theorem insAux_perm {α : Type} (lt : α → α → Bool) (b : α) (l : List α) :
    (insAux lt b l).Perm (b :: l) := by
  induction l with
  | nil => exact List.Perm.refl [b]
  | cons c cs ih =>
      simp only [insAux]
      by_cases h : lt b c
      · rw [if_pos h]
      · rw [if_neg h]
        exact (ih.cons c).trans (List.Perm.swap b c cs)

theorem insSort_perm {α : Type} (lt : α → α → Bool) (l : List α) :
    (insSort lt l).Perm l := by
  induction l with
  | nil => exact List.Perm.refl []
  | cons b bs ih => exact (insAux_perm lt b (insSort lt bs)).trans (ih.cons b)

theorem pmGet_pmSet_eq (m : List (Nat × Nat)) (k' v k : Nat) :
    pmGet (pmSet m k' v) k = if k' = k then some v else pmGet m k := by
  induction m with
  | nil => by_cases h : k' = k <;> simp [pmSet, pmGet, h]
  | cons a rest ih =>
      obtain ⟨ak, av⟩ := a
      by_cases hk : ak = k'
      · subst hk
        simp only [pmSet, if_pos rfl]
        by_cases hkk : ak = k <;> simp [pmGet, hkk]
      · simp only [pmSet, if_neg hk]
        by_cases hak : ak = k
        · have hkk : ¬ (k' = k) := fun hcon => hk (hak.trans hcon.symm)
          simp [pmGet, hak, hkk]
        · simp [pmGet, hak, ih]

theorem pmGet_pmSet_mono (m : List (Nat × Nat)) (k' v k : Nat)
    (hk : pmGet m k ≠ none) : pmGet (pmSet m k' v) k ≠ none := by
  rw [pmGet_pmSet_eq]
  by_cases h : k' = k
  · simp [h]
  · simpa [h] using hk

theorem dropLoop_length (h : Nat) (s : List HBlk) :
    ∀ (bud : Nat) (pm : List (Nat × Nat)) (rng : List Nat),
      (dropLoop h bud s pm rng).1.length + (dropLoop h bud s pm rng).2.2.2 = s.length := by
  induction s with
  | nil => intro bud pm rng; simp [dropLoop]
  | cons c cs ih =>
      intro bud pm rng
      cases bud with
      | zero => simp [dropLoop]
      | succ n =>
          by_cases hhp : c.hp
          · have := ih (n + 1) pm rng
            simp only [dropLoop, hhp, if_true, List.length_cons]
            omega
          · by_cases hv : c.valid
            · have := ih n (pmSet pm c.key (drawR rng (2 ^ h)).1) (drawR rng (2 ^ h)).2
              simp only [dropLoop, hhp, hv, if_true, if_false, Bool.false_eq_true,
                List.length_cons]
              omega
            · have := ih n pm rng
              simp only [dropLoop, hhp, hv, if_false, Bool.false_eq_true, List.length_cons]
              omega

theorem dropLoop_dropped (h : Nat) (s : List HBlk) :
    ∀ (bud : Nat) (pm : List (Nat × Nat)) (rng : List Nat),
      (dropLoop h bud s pm rng).2.2.2
        = min bud ((s.filter (fun b => !b.hp)).length) := by
  induction s with
  | nil => intro bud pm rng; simp [dropLoop]
  | cons c cs ih =>
      intro bud pm rng
      cases bud with
      | zero => simp [dropLoop]
      | succ n =>
          cases hhp : c.hp with
          | true =>
              have := ih (n + 1) pm rng
              simp [dropLoop, hhp, List.filter_cons]
              omega
          | false =>
              cases hv : c.valid with
              | true =>
                  have := ih n (pmSet pm c.key (drawR rng (2 ^ h)).1) (drawR rng (2 ^ h)).2
                  simp [dropLoop, hhp, hv, List.filter_cons]
                  omega
              | false =>
                  have := ih n pm rng
                  simp [dropLoop, hhp, hv, List.filter_cons]
                  omega

theorem dropLoop_filter_hp (h : Nat) (s : List HBlk) :
    ∀ (bud : Nat) (pm : List (Nat × Nat)) (rng : List Nat),
      (dropLoop h bud s pm rng).1.filter (fun b => b.hp)
        = s.filter (fun b => b.hp) := by
  induction s with
  | nil => intro bud pm rng; simp [dropLoop]
  | cons c cs ih =>
      intro bud pm rng
      cases bud with
      | zero => simp [dropLoop]
      | succ n =>
          by_cases hhp : c.hp
          · simp only [dropLoop, hhp, if_true, List.filter_cons]
            simp [hhp, ih (n + 1) pm rng]
          · by_cases hv : c.valid
            · simp only [dropLoop, hhp, hv, if_true, if_false, Bool.false_eq_true,
                List.filter_cons]
              simp [hhp, ih n (pmSet pm c.key (drawR rng (2 ^ h)).1) (drawR rng (2 ^ h)).2]
            · simp only [dropLoop, hhp, hv, if_false, Bool.false_eq_true, List.filter_cons]
              simp [hhp, ih n pm rng]

theorem dropLoop_sublist (h : Nat) (s : List HBlk) :
    ∀ (bud : Nat) (pm : List (Nat × Nat)) (rng : List Nat),
      (dropLoop h bud s pm rng).1.Sublist s := by
  induction s with
  | nil => intro bud pm rng; simp [dropLoop]
  | cons c cs ih =>
      intro bud pm rng
      cases bud with
      | zero =>
          have hstep : (dropLoop h 0 (c :: cs) pm rng).1 = c :: cs := by simp [dropLoop]
          rw [hstep]
      | succ n =>
          by_cases hhp : c.hp
          · have hstep : (dropLoop h (n + 1) (c :: cs) pm rng).1
                = c :: (dropLoop h (n + 1) cs pm rng).1 := by simp [dropLoop, hhp]
            rw [hstep]
            exact List.Sublist.cons₂ c (ih (n + 1) pm rng)
          · by_cases hv : c.valid
            · have hstep : (dropLoop h (n + 1) (c :: cs) pm rng).1
                  = (dropLoop h n cs (pmSet pm c.key (drawR rng (2 ^ h)).1)
                      (drawR rng (2 ^ h)).2).1 := by simp [dropLoop, hhp, hv]
              rw [hstep]
              exact List.Sublist.cons c (ih n _ _)
            · have hstep : (dropLoop h (n + 1) (c :: cs) pm rng).1
                  = (dropLoop h n cs pm rng).1 := by simp [dropLoop, hhp, hv]
              rw [hstep]
              exact List.Sublist.cons c (ih n pm rng)

theorem dropLoop_pm_mono (h : Nat) (s : List HBlk) :
    ∀ (bud : Nat) (pm : List (Nat × Nat)) (rng : List Nat) (k : Nat),
      pmGet pm k ≠ none → pmGet (dropLoop h bud s pm rng).2.1 k ≠ none := by
  induction s with
  | nil => intro bud pm rng k hk; simpa [dropLoop] using hk
  | cons c cs ih =>
      intro bud pm rng k hk
      cases bud with
      | zero => simpa [dropLoop] using hk
      | succ n =>
          by_cases hhp : c.hp
          · have hstep : (dropLoop h (n + 1) (c :: cs) pm rng).2.1
                = (dropLoop h (n + 1) cs pm rng).2.1 := by simp [dropLoop, hhp]
            rw [hstep]
            exact ih (n + 1) pm rng k hk
          · by_cases hv : c.valid
            · have hstep : (dropLoop h (n + 1) (c :: cs) pm rng).2.1
                  = (dropLoop h n cs (pmSet pm c.key (drawR rng (2 ^ h)).1)
                      (drawR rng (2 ^ h)).2).2.1 := by simp [dropLoop, hhp, hv]
              rw [hstep]
              exact ih n _ _ k (pmGet_pmSet_mono pm c.key (drawR rng (2 ^ h)).1 k hk)
            · have hstep : (dropLoop h (n + 1) (c :: cs) pm rng).2.1
                  = (dropLoop h n cs pm rng).2.1 := by simp [dropLoop, hhp, hv]
              rw [hstep]
              exact ih n pm rng k hk

theorem dropLoop_key (h : Nat) (s : List HBlk) :
    ∀ (bud : Nat) (pm : List (Nat × Nat)) (rng : List Nat) (b : HBlk),
      b ∈ s → b.valid = true → b ∉ (dropLoop h bud s pm rng).1 →
      pmGet (dropLoop h bud s pm rng).2.1 b.key ≠ none := by
  induction s with
  | nil => intro bud pm rng b hb; cases hb
  | cons c cs ih =>
      intro bud pm rng b hb hv hnm
      cases bud with
      | zero =>
          exact absurd hb (by simpa [dropLoop] using hnm)
      | succ n =>
          by_cases hhp : c.hp
          · have h1 : (dropLoop h (n + 1) (c :: cs) pm rng).1
                = c :: (dropLoop h (n + 1) cs pm rng).1 := by simp [dropLoop, hhp]
            have h2 : (dropLoop h (n + 1) (c :: cs) pm rng).2.1
                = (dropLoop h (n + 1) cs pm rng).2.1 := by simp [dropLoop, hhp]
            rw [h1] at hnm
            rw [h2]
            have hbc : b ≠ c := fun he => hnm (he ▸ List.mem_cons_self c _)
            have hb' : b ∈ cs := (List.mem_cons.mp hb).resolve_left hbc
            exact ih (n + 1) pm rng b hb' hv fun hm => hnm (List.mem_cons_of_mem c hm)
          · by_cases hvv : c.valid
            · have h1 : (dropLoop h (n + 1) (c :: cs) pm rng).1
                  = (dropLoop h n cs (pmSet pm c.key (drawR rng (2 ^ h)).1)
                      (drawR rng (2 ^ h)).2).1 := by simp [dropLoop, hhp, hvv]
              have h2 : (dropLoop h (n + 1) (c :: cs) pm rng).2.1
                  = (dropLoop h n cs (pmSet pm c.key (drawR rng (2 ^ h)).1)
                      (drawR rng (2 ^ h)).2).2.1 := by simp [dropLoop, hhp, hvv]
              rw [h1] at hnm
              rw [h2]
              rcases List.mem_cons.mp hb with he | hb'
              · rw [he]
                exact dropLoop_pm_mono h cs n _ _ c.key (by simp [pmGet_pmSet_eq])
              · exact ih n _ _ b hb' hv hnm
            · have h1 : (dropLoop h (n + 1) (c :: cs) pm rng).1
                  = (dropLoop h n cs pm rng).1 := by simp [dropLoop, hhp, hvv]
              have h2 : (dropLoop h (n + 1) (c :: cs) pm rng).2.1
                  = (dropLoop h n cs pm rng).2.1 := by simp [dropLoop, hhp, hvv]
              rw [h1] at hnm
              rw [h2]
              have hb' : b ∈ cs := by
                rcases List.mem_cons.mp hb with he | hb'
                · exact absurd (he ▸ hv) hvv
                · exact hb'
              exact ih n pm rng b hb' hv hnm

/-- Claim C8, amended.  On any stash holding at least one non-priority
block, `emergency_drop_blocks` reports success, removes no
high-priority block (the multiset of priority blocks is unchanged and
the surviving stash is a sub-multiset of the old one), removes exactly
`max(1, droppable/5)` blocks where `droppable` counts the non-priority
blocks, and leaves every dropped valid block's key mapped in the
position map (to a freshly drawn leaf).  A subsequent lookup of a
dropped key is NOT guaranteed to return not-found: the key stays in
the position map, and when a duplicate block with the same key
survives, the lookup finds it — see the counterexample. -/
theorem map_emergency_drop_c8 (st : HSt)
    (hnp : (st.stash.filter (fun b => !b.hp)).length ≠ 0) :
    (emergencyDropBlocks st).1 = true
    ∧ vms (fun b => b.hp) id (emergencyDropBlocks st).2.stash
        = vms (fun b => b.hp) id st.stash
    ∧ ((emergencyDropBlocks st).2.stash : Multiset HBlk) ≤ (st.stash : Multiset HBlk)
    ∧ (emergencyDropBlocks st).2.stash.length
        + max 1 ((st.stash.filter (fun b => !b.hp)).length / 5) = st.stash.length
    ∧ (∀ b ∈ st.stash, b.valid = true → b ∉ (emergencyDropBlocks st).2.stash →
        pmGet (emergencyDropBlocks st).2.posMap b.key ≠ none) := by
  have hperm := insSort_perm edCmp st.stash
  have hfl : ((insSort edCmp st.stash).filter (fun b => !b.hp)).length
      = (st.stash.filter (fun b => !b.hp)).length := (hperm.filter _).length_eq
  have hne : ¬ (((insSort edCmp st.stash).filter (fun b => !b.hp)).length = 0) := by
    rw [hfl]; exact hnp
  simp only [emergencyDropBlocks]
  rw [if_neg hne]
  refine ⟨?_, ?_, ?_, ?_, ?_⟩
  · refine decide_eq_true ?_
    rw [dropLoop_dropped]
    omega
  · show vms (fun b => b.hp) id (dropLoop st.height
        (max 1 (((insSort edCmp st.stash).filter (fun b => !b.hp)).length / 5))
        (insSort edCmp st.stash) st.posMap st.rng).1
      = vms (fun b => b.hp) id st.stash
    simp only [vms]
    rw [dropLoop_filter_hp]
    exact Multiset.coe_eq_coe.mpr ((hperm.filter _).map _)
  · show ((dropLoop st.height
        (max 1 (((insSort edCmp st.stash).filter (fun b => !b.hp)).length / 5))
        (insSort edCmp st.stash) st.posMap st.rng).1 : Multiset HBlk)
      ≤ (st.stash : Multiset HBlk)
    exact Multiset.coe_le.mpr
      ((dropLoop_sublist st.height _ _ st.posMap st.rng).subperm.trans hperm.subperm)
  · show (dropLoop st.height
        (max 1 (((insSort edCmp st.stash).filter (fun b => !b.hp)).length / 5))
        (insSort edCmp st.stash) st.posMap st.rng).1.length
      + max 1 ((st.stash.filter (fun b => !b.hp)).length / 5) = st.stash.length
    have hlen := dropLoop_length st.height (insSort edCmp st.stash)
      (max 1 (((insSort edCmp st.stash).filter (fun b => !b.hp)).length / 5))
      st.posMap st.rng
    have hdr := dropLoop_dropped st.height (insSort edCmp st.stash)
      (max 1 (((insSort edCmp st.stash).filter (fun b => !b.hp)).length / 5))
      st.posMap st.rng
    have hsl : (insSort edCmp st.stash).length = st.stash.length := hperm.length_eq
    omega
  · intro b hb hv hnm
    exact dropLoop_key st.height (insSort edCmp st.stash) _ st.posMap st.rng b
      (hperm.mem_iff.mpr hb) hv hnm

/-- Witness for the amended C8 at a one-block stash: the single
non-priority valid block is dropped, the flag is raised and its key 7
is remapped in the position map. -/
theorem map_emergency_drop_c8_witness :
    (emergencyDropBlocks ⟨1, 10, 1, [], [⟨true, 7, [1], 0, 0, false⟩], [], false, [0]⟩).1 = true
    ∧ vms (fun b => b.hp) id (emergencyDropBlocks
        ⟨1, 10, 1, [], [⟨true, 7, [1], 0, 0, false⟩], [], false, [0]⟩).2.stash
      = vms (fun b => b.hp) id ([⟨true, 7, [1], 0, 0, false⟩] : List HBlk)
    ∧ ((emergencyDropBlocks
        ⟨1, 10, 1, [], [⟨true, 7, [1], 0, 0, false⟩], [], false, [0]⟩).2.stash
        : Multiset HBlk) ≤ (([⟨true, 7, [1], 0, 0, false⟩] : List HBlk) : Multiset HBlk)
    ∧ (emergencyDropBlocks
        ⟨1, 10, 1, [], [⟨true, 7, [1], 0, 0, false⟩], [], false, [0]⟩).2.stash.length
        + max 1 ((([⟨true, 7, [1], 0, 0, false⟩] : List HBlk).filter
            (fun b => !b.hp)).length / 5)
      = ([⟨true, 7, [1], 0, 0, false⟩] : List HBlk).length
    ∧ (∀ b ∈ [(⟨true, 7, [1], 0, 0, false⟩ : HBlk)], b.valid = true →
        b ∉ (emergencyDropBlocks
          ⟨1, 10, 1, [], [⟨true, 7, [1], 0, 0, false⟩], [], false, [0]⟩).2.stash →
        pmGet (emergencyDropBlocks
          ⟨1, 10, 1, [], [⟨true, 7, [1], 0, 0, false⟩], [], false, [0]⟩).2.posMap b.key
          ≠ none) :=
  map_emergency_drop_c8 ⟨1, 10, 1, [], [⟨true, 7, [1], 0, 0, false⟩], [], false, [0]⟩
    (by decide)

/-- Counterexample to claim C8 as stated: a stash with two valid blocks
of key 7 — one non-priority (value `[1]`, five failed evictions), one
priority (value `[2]`).  The drop removes the non-priority block and
remaps key 7, but the subsequent `oblivious_lookup(7)` still returns
found (with the survivor's value), not not-found. -/
theorem map_emergency_drop_c8_counterexample :
    (⟨true, 7, [1], 0, 5, false⟩ : HBlk) ∉
      (emergencyDropBlocks ⟨1, 100, 1,
        [[], [⟨false, 0, [], 0, 0, false⟩], [⟨false, 0, [], 0, 0, false⟩],
          [⟨false, 0, [], 0, 0, false⟩]],
        [⟨true, 7, [1], 0, 5, false⟩, ⟨true, 7, [2], 0, 0, true⟩],
        [(7, 0)], false, [1, 0]⟩).2.stash
    ∧ (lookupH id (emergencyDropBlocks ⟨1, 100, 1,
        [[], [⟨false, 0, [], 0, 0, false⟩], [⟨false, 0, [], 0, 0, false⟩],
          [⟨false, 0, [], 0, 0, false⟩]],
        [⟨true, 7, [1], 0, 5, false⟩, ⟨true, 7, [2], 0, 0, true⟩],
        [(7, 0)], false, [1, 0]⟩).2 7).2.1 = true := by
  decide

end Oram
